import Mathlib

/-!
Verification development for the headline-scraper core of
`scrape_homepages.py`: URL normalization, anchor-text resolution,
ancestor classification, heuristic scoring, multi-pass selector
escalation, per-page deduplication/ranking and cross-source merging,
shallowly embedded in Lean.

Library routines the scraper calls (`urllib.parse.urlsplit/urlparse/
urlunparse/urljoin`, BeautifulSoup's `get_text` and CSS `select`,
`re` searches against the fixed compiled patterns) are modelled
explicitly; each model carries a doc comment naming the routine it
models.  Unicode-only refinements (non-ASCII case folding, non-ASCII
digits and whitespace classes) are modelled by their ASCII behaviour,
and the `\t`/`\r`/`\n` pre-stripping of `urlsplit` is omitted; none of
the verified properties depend on those refinements.
-/

namespace Scrape

/-! ## Basic character and list-splitting utilities -/

/-- Characters `urllib.parse` allows in a URL scheme (`scheme_chars`):
ASCII letters and digits plus `+`, `-`, `.`. -/
def schemeChar (c : Char) : Bool :=
  c.isAlpha || c.isDigit || c = '+' || c = '-' || c = '.'

/-- Split a character list at the first occurrence of `c`.
`splitFirst c l = some (a, b)` exactly when `l = a ++ c :: b` with `c ∉ a`;
`none` when `c ∉ l`.  Models Python's `str.split(sep, 1)` / `str.find`. -/
def splitFirst (c : Char) : List Char → Option (List Char × List Char)
  | [] => none
  | x :: xs =>
    if x = c then some ([], xs)
    else
      match splitFirst c xs with
      | none => none
      | some (a, b) => some (x :: a, b)

theorem splitFirst_eq_none {c : Char} {l : List Char} :
    splitFirst c l = none ↔ c ∉ l := by
  induction l with
  | nil => simp [splitFirst]
  | cons x xs ih =>
    by_cases hx : x = c
    · subst hx; simp [splitFirst]
    · cases h : splitFirst c xs with
      | none =>
        have hnx : c ∉ xs := ih.mp h
        simp [splitFirst, if_neg hx, h, Ne.symm hx, hnx]
      | some p =>
        obtain ⟨a, b⟩ := p
        have hmem : c ∈ xs := by
          by_contra hnot
          rw [ih.mpr hnot] at h
          cases h
        simp [splitFirst, if_neg hx, h, hmem]

theorem splitFirst_eq_some {c : Char} {l a b : List Char}
    (h : splitFirst c l = some (a, b)) : l = a ++ c :: b ∧ c ∉ a := by
  induction l generalizing a b with
  | nil => simp [splitFirst] at h
  | cons x xs ih =>
    by_cases hx : x = c
    · subst hx
      simp only [splitFirst, if_pos rfl, Option.some.injEq, Prod.mk.injEq] at h
      obtain ⟨rfl, rfl⟩ := h
      simp
    · cases hsub : splitFirst c xs with
      | none => simp [splitFirst, if_neg hx, hsub] at h
      | some p =>
        obtain ⟨a', b'⟩ := p
        simp only [splitFirst, if_neg hx, hsub, Option.some.injEq,
          Prod.mk.injEq] at h
        obtain ⟨rfl, rfl⟩ := h
        obtain ⟨hxs, hnotin⟩ := ih hsub
        refine ⟨by rw [hxs]; simp, ?_⟩
        simp only [List.mem_cons]
        rintro (rfl | hmem)
        · exact hx rfl
        · exact hnotin hmem

theorem splitFirst_append {c : Char} {a : List Char} (b : List Char)
    (h : c ∉ a) : splitFirst c (a ++ c :: b) = some (a, b) := by
  induction a with
  | nil => simp [splitFirst]
  | cons x xs ih =>
    have hx : x ≠ c := fun hc => h (hc ▸ List.mem_cons_self x xs)
    have hxs : c ∉ xs := fun hm => h (List.mem_cons_of_mem x hm)
    simp [splitFirst, if_neg hx, ih hxs]

/-- Full split on a separator, modelling Python's `str.split(sep)`:
`splitAll c l` is the (always nonempty) list of `c`-free chunks. -/
def splitAll (c : Char) : List Char → List (List Char)
  | [] => [[]]
  | x :: xs =>
    match splitAll c xs with
    | [] => [[]]
    | h :: t => if x = c then [] :: h :: t else (x :: h) :: t

/-- Join chunks with a separator, modelling Python's `sep.join(parts)`. -/
def joinAll (c : Char) : List (List Char) → List Char
  | [] => []
  | [x] => x
  | x :: y :: t => x ++ c :: joinAll c (y :: t)

theorem splitAll_ne_nil (c : Char) (l : List Char) : splitAll c l ≠ [] := by
  cases l with
  | nil => simp [splitAll]
  | cons x xs =>
    cases hs : splitAll c xs with
    | nil => simp [splitAll, hs]
    | cons hd t =>
      by_cases hx : x = c <;> simp [splitAll, hs, hx]

theorem joinAll_splitAll (c : Char) (l : List Char) :
    joinAll c (splitAll c l) = l := by
  induction l with
  | nil => simp [splitAll, joinAll]
  | cons x xs ih =>
    cases hs : splitAll c xs with
    | nil => exact absurd hs (splitAll_ne_nil c xs)
    | cons hd t =>
      rw [hs] at ih
      by_cases hx : x = c
      · subst hx
        simp only [splitAll, hs, if_pos rfl, joinAll]
        rw [List.nil_append, ih]
      · simp only [splitAll, hs, if_neg hx]
        cases t with
        | nil =>
          simp only [joinAll] at ih ⊢
          rw [ih]
        | cons t0 ts =>
          simp only [joinAll] at ih ⊢
          rw [List.cons_append, ih]

theorem splitAll_of_not_mem {c : Char} {p : List Char} (hp : c ∉ p) :
    splitAll c p = [p] := by
  induction p with
  | nil => simp [splitAll]
  | cons x xs ih =>
    have hx : x ≠ c := fun hc => hp (hc ▸ List.mem_cons_self x xs)
    have hxs : c ∉ xs := fun hm => hp (List.mem_cons_of_mem x hm)
    simp [splitAll, ih hxs, if_neg hx]

theorem splitAll_append_cons {c : Char} {p : List Char} (hp : c ∉ p)
    (rest : List Char) :
    splitAll c (p ++ c :: rest) = p :: splitAll c rest := by
  induction p with
  | nil =>
    cases hs : splitAll c rest with
    | nil => exact absurd hs (splitAll_ne_nil c rest)
    | cons hd t => simp [splitAll, hs]
  | cons x xs ih =>
    have hx : x ≠ c := fun hc => hp (hc ▸ List.mem_cons_self x xs)
    have hxs : c ∉ xs := fun hm => hp (List.mem_cons_of_mem x hm)
    have := ih hxs
    cases hs : splitAll c (xs ++ c :: rest) with
    | nil => exact absurd hs (splitAll_ne_nil c _)
    | cons hd t =>
      rw [hs] at this
      cases hrest : splitAll c rest with
      | nil => exact absurd hrest (splitAll_ne_nil c rest)
      | cons rh rt =>
        rw [hrest] at this
        obtain ⟨rfl, rfl⟩ : hd = xs ∧ t = rh :: rt := by
          constructor
          · exact (List.cons.injEq _ _ _ _ ▸ this).1
          · exact (List.cons.injEq _ _ _ _ ▸ this).2
        simp [splitAll, hs, if_neg hx, hrest]

theorem splitAll_joinAll {c : Char} (parts : List (List Char))
    (hne : parts ≠ []) (hfree : ∀ p ∈ parts, c ∉ p) :
    splitAll c (joinAll c parts) = parts := by
  induction parts with
  | nil => exact absurd rfl hne
  | cons p ps ih =>
    cases ps with
    | nil =>
      simp only [joinAll]
      exact splitAll_of_not_mem (hfree p (List.mem_singleton.mpr rfl))
    | cons q qs =>
      have hp : c ∉ p := hfree p (List.mem_cons_self _ _)
      have hrest : splitAll c (joinAll c (q :: qs)) = q :: qs :=
        ih (by simp) (fun r hr => hfree r (List.mem_cons_of_mem p hr))
      simp only [joinAll]
      rw [splitAll_append_cons hp, hrest]

theorem not_mem_of_mem_splitAll {c : Char} {l part : List Char}
    (h : part ∈ splitAll c l) : c ∉ part := by
  induction l generalizing part with
  | nil =>
    simp only [splitAll, List.mem_singleton] at h
    subst h; simp
  | cons x xs ih =>
    cases hs : splitAll c xs with
    | nil => exact absurd hs (splitAll_ne_nil c xs)
    | cons hd t =>
      by_cases hx : x = c
      · subst hx
        simp only [splitAll, hs, eq_self_iff_true, if_true,
          List.mem_cons] at h
        rcases h with h | h
        · subst h; simp
        · exact ih (hs ▸ List.mem_cons.mpr h)
      · simp only [splitAll, hs, hx, if_false, List.mem_cons] at h
        rcases h with h | h
        · subst h
          have hhd : c ∉ hd := ih (hs ▸ List.mem_cons_self hd t)
          simp only [List.mem_cons]
          rintro (rfl | hmem)
          · exact hx rfl
          · exact hhd hmem
        · exact ih (hs ▸ List.mem_cons_of_mem hd h)

theorem mem_of_mem_mem_splitAll {c : Char} {l part : List Char} {d : Char}
    (hpart : part ∈ splitAll c l) (hd : d ∈ part) : d ∈ l := by
  induction l generalizing part with
  | nil =>
    simp only [splitAll, List.mem_singleton] at hpart
    subst hpart; simp at hd
  | cons x xs ih =>
    cases hs : splitAll c xs with
    | nil => exact absurd hs (splitAll_ne_nil c xs)
    | cons hd' t =>
      by_cases hx : x = c
      · subst hx
        simp only [splitAll, hs, eq_self_iff_true, if_true,
          List.mem_cons] at hpart
        rcases hpart with h | hpart
        · subst h; simp at hd
        · exact List.mem_cons_of_mem _ (ih (hs ▸ List.mem_cons.mpr hpart) hd)
      · simp only [splitAll, hs, hx, if_false, List.mem_cons] at hpart
        rcases hpart with h | hpart
        · subst h
          rcases List.mem_cons.mp hd with h' | hmem
          · subst h'; exact List.mem_cons_self _ _
          · exact List.mem_cons_of_mem _
              (ih (hs ▸ List.mem_cons_self hd' t) hmem)
        · exact List.mem_cons_of_mem _
            (ih (hs ▸ List.mem_cons_of_mem hd' hpart) hd)

theorem mem_joinAll {c : Char} {parts : List (List Char)} {d : Char}
    (h : d ∈ joinAll c parts) : d = c ∨ ∃ p ∈ parts, d ∈ p := by
  induction parts with
  | nil => simp [joinAll] at h
  | cons p ps ih =>
    cases ps with
    | nil =>
      simp only [joinAll] at h
      exact Or.inr ⟨p, List.mem_singleton.mpr rfl, h⟩
    | cons q qs =>
      simp only [joinAll, List.mem_append, List.mem_cons] at h
      rcases h with hp | rfl | hrest
      · exact Or.inr ⟨p, List.mem_cons_self _ _, hp⟩
      · exact Or.inl rfl
      · rcases ih hrest with rfl | ⟨r, hr, hdr⟩
        · exact Or.inl rfl
        · exact Or.inr ⟨r, List.mem_cons_of_mem p hr, hdr⟩

/-! ## Character-class lemmas for ASCII lowercasing -/

theorem char_toNat_ofNat {n : Nat} (h : Nat.isValidChar n) :
    (Char.ofNat n).toNat = n := by
  simp only [Char.ofNat, h, dif_pos]
  simp only [Char.ofNatAux, Char.toNat]
  have : n < 2 ^ 32 := by
    rcases h with h | h <;> omega
  simp [UInt32.toNat, UInt32.ofNat', Nat.mod_eq_of_lt this]

theorem toLower_toNat (c : Char) :
    (Char.toLower c).toNat =
      if c.toNat ≥ 65 ∧ c.toNat ≤ 90 then c.toNat + 32 else c.toNat := by
  unfold Char.toLower
  by_cases h : c.toNat ≥ 65 ∧ c.toNat ≤ 90
  · rw [if_pos h, if_pos h, char_toNat_ofNat (Or.inl (by omega))]
  · rw [if_neg h, if_neg h]

theorem char_eq_of_toNat {c d : Char} (h : c.toNat = d.toNat) : c = d := by
  apply Char.ext
  apply UInt32.ext
  simpa [Char.toNat, UInt32.toNat] using h

theorem toLower_idem (c : Char) :
    Char.toLower (Char.toLower c) = Char.toLower c := by
  apply char_eq_of_toNat
  rw [toLower_toNat, toLower_toNat c]
  by_cases h : c.toNat ≥ 65 ∧ c.toNat ≤ 90
  · rw [if_pos h, if_neg (by omega)]
  · rw [if_neg h, if_neg h]

theorem isUpper_toNat (c : Char) :
    c.isUpper = true ↔ c.toNat ≥ 65 ∧ c.toNat ≤ 90 := by
  simp only [Char.isUpper, Bool.and_eq_true, decide_eq_true_eq]
  exact Iff.rfl

theorem isLower_toNat (c : Char) :
    c.isLower = true ↔ c.toNat ≥ 97 ∧ c.toNat ≤ 122 := by
  simp only [Char.isLower, Bool.and_eq_true, decide_eq_true_eq]
  exact Iff.rfl

theorem isDigit_toNat (c : Char) :
    c.isDigit = true ↔ c.toNat ≥ 48 ∧ c.toNat ≤ 57 := by
  simp only [Char.isDigit, Bool.and_eq_true, decide_eq_true_eq]
  exact Iff.rfl

theorem toLower_eq_self {c : Char} (h : ¬(c.toNat ≥ 65 ∧ c.toNat ≤ 90)) :
    Char.toLower c = c :=
  char_eq_of_toNat (by rw [toLower_toNat, if_neg h])

theorem isAlpha_toLower {c : Char} (h : c.isAlpha = true) :
    (Char.toLower c).isAlpha = true := by
  by_cases hu : c.toNat ≥ 65 ∧ c.toNat ≤ 90
  · simp only [Char.isAlpha, Bool.or_eq_true]
    right
    rw [isLower_toNat, toLower_toNat, if_pos hu]
    omega
  · rw [toLower_eq_self hu]; exact h

theorem schemeChar_toLower {c : Char} (h : schemeChar c = true) :
    schemeChar (Char.toLower c) = true := by
  by_cases hu : c.toNat ≥ 65 ∧ c.toNat ≤ 90
  · have halpha : (Char.toLower c).isAlpha = true := by
      simp only [Char.isAlpha, Bool.or_eq_true]
      right
      rw [isLower_toNat, toLower_toNat, if_pos hu]
      omega
    simp [schemeChar, halpha]
  · rw [toLower_eq_self hu]; exact h

theorem schemeChar_ne_colon {c : Char} (h : schemeChar c = true) : c ≠ ':' := by
  rintro rfl
  simp [schemeChar] at h

theorem toLower_map_idem (l : List Char) :
    (l.map Char.toLower).map Char.toLower = l.map Char.toLower := by
  rw [List.map_map]
  apply List.map_congr_left
  intro c _
  exact toLower_idem c

/-! ## Model of `urllib.parse`

The scraper's `normalize_url` and `is_probably_article_url` call
`urlparse`/`urlunparse`, and `extract_candidates` calls `urljoin`.
These CPython routines are modelled below over `List Char`.  The model
follows the CPython 3.11 source (the interpreter current GitHub
runners ship): scheme detection with lowercasing, netloc splitting
stopped by `/?#` with the "Invalid IPv6 URL" `ValueError` (the
`Except.error` case) for unbalanced square brackets, fragment and
query splitting on the first `#`/`?`, `;`-params splitting off the
last path segment gated on `uses_params`, and `urlunsplit`'s
`netloc or (scheme and scheme in uses_netloc and url[:2] != '//')`
re-assembly rule.  The `lstrip` of C0 controls, the `\t\r\n` removal
and the NFKC netloc check apply only to control or non-ASCII
characters and are not modelled. -/

/-- `urllib.parse.uses_netloc` (CPython 3.11). -/
def USES_NETLOC : List (List Char) :=
  (["", "ftp", "http", "gopher", "nntp", "telnet", "imap", "wais",
    "file", "mms", "https", "shttp", "snews", "prospero", "rtsp",
    "rtsps", "rtspu", "rsync", "svn", "svn+ssh", "sftp", "nfs", "git",
    "git+ssh", "ws", "wss"].map String.data)

/-- `urllib.parse.uses_relative` (CPython 3.11). -/
def USES_RELATIVE : List (List Char) :=
  (["", "ftp", "http", "gopher", "nntp", "imap", "wais", "file",
    "https", "shttp", "mms", "prospero", "rtsp", "rtsps", "rtspu",
    "sftp", "svn", "svn+ssh", "ws", "wss"].map String.data)

/-- `urllib.parse.uses_params` (CPython 3.11). -/
def USES_PARAMS : List (List Char) :=
  (["", "ftp", "hdl", "prospero", "http", "imap", "https", "shttp",
    "rtsp", "rtsps", "rtspu", "sip", "sips", "mms", "sftp",
    "tel"].map String.data)

/-- One component result of `urlsplit`. -/
structure SplitResult where
  scheme : List Char
  netloc : List Char
  path : List Char
  query : List Char
  fragment : List Char
deriving Repr, DecidableEq

/-- One component result of `urlparse` (adds `params`). -/
structure ParseResult where
  scheme : List Char
  netloc : List Char
  path : List Char
  params : List Char
  query : List Char
  fragment : List Char
deriving Repr, DecidableEq

/-- Scheme extraction step of `urlsplit`: the text before the first `:`
must be nonempty, start with an ASCII letter and consist of
`scheme_chars`; the scheme is lowercased.  `none` when the URL carries
no (valid) scheme prefix, in which case `urlsplit` leaves the URL
untouched. -/
def takeScheme (l : List Char) : Option (List Char × List Char) :=
  match splitFirst ':' l with
  | none => none
  | some ([], _) => none
  | some (p0 :: ps, post) =>
    if p0.isAlpha && (p0 :: ps).all schemeChar then
      some ((p0 :: ps).map Char.toLower, post)
    else none

/-- Characters that terminate the netloc in `urlsplit`
(`_splitnetloc` scans until `/`, `?` or `#`). -/
def notNetlocDelim (c : Char) : Bool := !(c = '/' || c = '?' || c = '#')

/-- The "Invalid IPv6 URL" condition of `urlsplit`: a `[` without `]`
or a `]` without `[` in the netloc.  (The detailed bracketed-host
validation of newer CPython is not modelled; it only affects which
inputs raise, never the components of successful parses.) -/
def bracketBad (netloc : List Char) : Bool :=
  ('[' ∈ netloc && ']' ∉ netloc) || (']' ∈ netloc && '[' ∉ netloc)

/-- Model of `urllib.parse.urlsplit(url, scheme=default_scheme)`. -/
def pyUrlsplitD (default_scheme : List Char) (l : List Char) :
    Except Unit SplitResult :=
  let sp := match takeScheme l with
    | none => (default_scheme, l)
    | some (s, r) => (s, r)
  let scheme := sp.1
  let rest := sp.2
  let np :=
    if rest.take 2 = ['/', '/'] then
      ((rest.drop 2).takeWhile notNetlocDelim,
        (rest.drop 2).dropWhile notNetlocDelim)
    else ([], rest)
  let netloc := np.1
  let rest2 := np.2
  if bracketBad netloc then
    .error ()
  else
    let ff := match splitFirst '#' rest2 with
      | none => (rest2, [])
      | some (a, b) => (a, b)
    let qq := match splitFirst '?' ff.1 with
      | none => (ff.1, [])
      | some (a, b) => (a, b)
    .ok ⟨scheme, netloc, qq.1, qq.2, ff.2⟩

/-- `urlsplit` with the default empty scheme. -/
def pyUrlsplit (l : List Char) : Except Unit SplitResult := pyUrlsplitD [] l

/-- Model of `urllib.parse.urlunsplit` (CPython 3.11:
`if netloc or (scheme and scheme in uses_netloc and url[:2] != '//')`). -/
def pyUrlunsplit (s : SplitResult) : List Char :=
  let url := s.path
  let url :=
    if s.netloc ≠ [] ∨
        (s.scheme ≠ [] ∧ s.scheme ∈ USES_NETLOC ∧ url.take 2 ≠ ['/', '/']) then
      '/' :: '/' :: s.netloc ++
        (if url ≠ [] ∧ url.take 1 ≠ ['/'] then '/' :: url else url)
    else url
  let url := if s.scheme ≠ [] then s.scheme ++ ':' :: url else url
  let url := if s.query ≠ [] then url ++ '?' :: s.query else url
  if s.fragment ≠ [] then url ++ '#' :: s.fragment else url

/-- Model of `urllib.parse._splitparams`: split `;params` off the last
path segment (or off the whole path when it has no `/`). -/
def splitParams (l : List Char) : List Char × List Char :=
  if '/' ∈ l then
    match splitFirst '/' l.reverse with
    | none => (l, [])
    | some (segR, preR) =>
      match splitFirst ';' segR.reverse with
      | none => (l, [])
      | some (a, b) => (preR.reverse ++ '/' :: a, b)
  else
    match splitFirst ';' l with
    | none => (l, [])
    | some (a, b) => (a, b)

/-- The params step of `urlparse`: only invoked when the scheme uses
params and the path contains a `;`
(`if scheme in uses_params and ';' in url` in CPython). -/
def pathParams (scheme l : List Char) : List Char × List Char :=
  if scheme ∈ USES_PARAMS ∧ ';' ∈ l then splitParams l else (l, [])

/-- Model of `urllib.parse.urlparse(url, scheme=default_scheme)`. -/
def pyUrlparseD (default_scheme : List Char) (l : List Char) :
    Except Unit ParseResult :=
  match pyUrlsplitD default_scheme l with
  | .error e => .error e
  | .ok s =>
    let pp := pathParams s.scheme s.path
    .ok ⟨s.scheme, s.netloc, pp.1, pp.2, s.query, s.fragment⟩

/-- `urlparse` with the default empty scheme. -/
def pyUrlparse (l : List Char) : Except Unit ParseResult := pyUrlparseD [] l

/-- Re-attach params to the path (`url = "%s;%s" % (url, params)` in
`urlunparse`, applied only when params is non-empty). -/
def rejoinParams (path params : List Char) : List Char :=
  if params ≠ [] then path ++ ';' :: params else path

/-- Model of `urllib.parse.urlunparse`. -/
def pyUrlunparse (p : ParseResult) : List Char :=
  pyUrlunsplit ⟨p.scheme, p.netloc, rejoinParams p.path p.params,
    p.query, p.fragment⟩

/-! ## `normalize_url` (scrape_homepages.py lines 55-77) -/

/-- The key of one `k=v` query chunk: text before the first `=`,
lowercased (`part.split("=", 1)[0].lower()`). -/
def queryKey (part : List Char) : List Char :=
  (part.takeWhile (fun c => c ≠ '=')).map Char.toLower

/-- Tracking-parameter test of `normalize_url`:
`k.startswith("utm_") or k in {"fbclid", "gclid"}`. -/
def isTrackingKey (k : List Char) : Bool :=
  k.take 4 = ['u', 't', 'm', '_'] ||
    k = ['f', 'b', 'c', 'l', 'i', 'd'] || k = ['g', 'c', 'l', 'i', 'd']

/-- Drop tracking parameters from a query string, keeping the other
`&`-separated chunks verbatim and in order. -/
def filterQuery (q : List Char) : List Char :=
  joinAll '&' ((splitAll '&' q).filter (fun part => !isTrackingKey (queryKey part)))

/-- The transform `normalize_url` applies to a parse result: drop the
fragment, and filter the query when it is non-empty
(`if p.query:` guard). -/
def normalizeTransform (p : ParseResult) : ParseResult :=
  let p1 : ParseResult := { p with fragment := [] }
  if p1.query ≠ [] then { p1 with query := filterQuery p1.query } else p1

/-- `normalize_url` over character lists: parse, drop fragment, filter
tracking query parameters, unparse; on a parse `ValueError` return the
input unchanged (the `try/except` of the source). -/
def normalizeUrlL (l : List Char) : List Char :=
  match pyUrlparse l with
  | .error _ => l
  | .ok p => pyUrlunparse (normalizeTransform p)

/-- `normalize_url` (scrape_homepages.py lines 55-77). -/
def normalize_url (u : String) : String := ⟨normalizeUrlL u.data⟩

example :
    normalize_url "https://Example.org/a/b?utm_source=x&id=7&fbclid=z#frag"
      = "https://Example.org/a/b?id=7" := by rfl

example : normalize_url "HTTP://h/p" = "http://h/p" := by rfl

example : normalize_url "http://[::1/x" = "http://[::1/x" := by rfl

example : normalize_url "http:///path" = "http:///path" := by rfl

example : normalize_url "http:path" = "http:///path" := by rfl

example : normalize_url "//h/a;x=1?gclid=1" = "//h/a;x=1" := by rfl

example : normalize_url "http://h/a;" = "http://h/a" := by rfl

example : normalize_url "http://////x" = "http:////x" := by rfl

example : normalize_url "http:////x" = "http://x" := by rfl

example : normalize_url "////x" = "//x" := by rfl

example : normalize_url "//x" = "//x" := by rfl

example : normalize_url (normalize_url "http://////x")
    ≠ normalize_url "http://////x" := by decide

/-! ## Structural lemmas about the `urllib.parse` model -/

theorem takeWhile_append_all {p : Char → Bool} {a b : List Char}
    (ha : ∀ x ∈ a, p x = true)
    (hb : b = [] ∨ ∃ c cs, b = c :: cs ∧ p c = false) :
    (a ++ b).takeWhile p = a ∧ (a ++ b).dropWhile p = b := by
  induction a with
  | nil =>
    rcases hb with rfl | ⟨c, cs, rfl, hc⟩
    · simp
    · simp [List.takeWhile, List.dropWhile, hc]
  | cons x xs ih =>
    have hx : p x = true := ha x (List.mem_cons_self x xs)
    have hxs : ∀ y ∈ xs, p y = true := fun y hy => ha y (List.mem_cons_of_mem x hy)
    obtain ⟨h1, h2⟩ := ih hxs
    simp [List.takeWhile, List.dropWhile, hx, h1, h2]

theorem mem_rejoinParams {a b : List Char} {x : Char}
    (h : x ∈ rejoinParams a b) : x ∈ a ∨ x = ';' ∨ x ∈ b := by
  unfold rejoinParams at h
  by_cases hb : b ≠ []
  · rw [if_pos hb] at h
    rcases List.mem_append.mp h with h | h
    · exact Or.inl h
    · rcases List.mem_cons.mp h with h | h
      · exact Or.inr (Or.inl h)
      · exact Or.inr (Or.inr h)
  · rw [if_neg hb] at h
    exact Or.inl h

/-- Every outcome of `splitParams x` is either the identity split
`(x, [])` or a genuine split `x = a ++ ';' :: b`. -/
theorem splitParams_cases {x a b : List Char} (h : splitParams x = (a, b)) :
    (a = x ∧ b = []) ∨ x = a ++ ';' :: b := by
  unfold splitParams at h
  by_cases hm : '/' ∈ x
  · rw [if_pos hm] at h
    cases hrev : splitFirst '/' x.reverse with
    | none =>
      simp only [hrev, Prod.mk.injEq] at h
      exact Or.inl ⟨h.1.symm, h.2.symm⟩
    | some pr =>
      obtain ⟨segR, preR⟩ := pr
      cases hseg : splitFirst ';' segR.reverse with
      | none =>
        simp only [hrev, hseg, Prod.mk.injEq] at h
        exact Or.inl ⟨h.1.symm, h.2.symm⟩
      | some ab =>
        obtain ⟨a', b'⟩ := ab
        simp only [hrev, hseg, Prod.mk.injEq] at h
        obtain ⟨rfl, rfl⟩ : preR.reverse ++ '/' :: a' = a ∧ b' = b :=
          ⟨h.1, h.2⟩
        right
        obtain ⟨hx1, _⟩ := splitFirst_eq_some hrev
        obtain ⟨hx2, _⟩ := splitFirst_eq_some hseg
        have hxfull : x = preR.reverse ++ '/' :: segR.reverse := by
          have := congrArg List.reverse hx1
          simpa using this
        rw [hxfull, hx2]
        simp
  · rw [if_neg hm] at h
    cases hsp : splitFirst ';' x with
    | none =>
      simp only [hsp, Prod.mk.injEq] at h
      exact Or.inl ⟨h.1.symm, h.2.symm⟩
    | some ab =>
      obtain ⟨a', b'⟩ := ab
      simp only [hsp, Prod.mk.injEq] at h
      obtain ⟨rfl, rfl⟩ : a' = a ∧ b' = b := ⟨h.1, h.2⟩
      exact Or.inr (splitFirst_eq_some hsp).1

theorem pathParams_cases {scheme x a b : List Char}
    (h : pathParams scheme x = (a, b)) :
    (a = x ∧ b = []) ∨ x = a ++ ';' :: b := by
  unfold pathParams at h
  by_cases hg : scheme ∈ USES_PARAMS ∧ ';' ∈ x
  · rw [if_pos hg] at h
    exact splitParams_cases h
  · rw [if_neg hg] at h
    simp only [Prod.mk.injEq] at h
    exact Or.inl ⟨h.1.symm, h.2.symm⟩

theorem mem_of_mem_pathParams_fst {scheme x : List Char} {y : Char}
    (h : y ∈ (pathParams scheme x).1) : y ∈ x := by
  rcases hp : pathParams scheme x with ⟨a, b⟩
  rw [hp] at h
  rcases pathParams_cases hp with ⟨ha, _⟩ | hx
  · rw [ha] at h; exact h
  · rw [hx]; exact List.mem_append.mpr (Or.inl h)

theorem mem_of_mem_pathParams_snd {scheme x : List Char} {y : Char}
    (h : y ∈ (pathParams scheme x).2) : y ∈ x := by
  rcases hp : pathParams scheme x with ⟨a, b⟩
  rw [hp] at h
  rcases pathParams_cases hp with ⟨_, hb⟩ | hx
  · rw [hb] at h; simp at h
  · rw [hx]
    exact List.mem_append.mpr (Or.inr (List.mem_cons_of_mem _ h))

/-- Refined structure of a genuine `splitParams` split: the retained
path's last segment is free of `/` and `;`. -/
theorem splitParams_struct {x a b : List Char} (h : splitParams x = (a, b)) :
    (a = x ∧ b = []) ∨
      (x = a ++ ';' :: b ∧
        (('/' ∉ a ∧ ';' ∉ a) ∨
          ∃ P s, a = P ++ '/' :: s ∧ '/' ∉ s ∧ ';' ∉ s)) := by
  unfold splitParams at h
  by_cases hm : '/' ∈ x
  · rw [if_pos hm] at h
    cases hrev : splitFirst '/' x.reverse with
    | none =>
      simp only [hrev, Prod.mk.injEq] at h
      exact Or.inl ⟨h.1.symm, h.2.symm⟩
    | some pr =>
      obtain ⟨segR, preR⟩ := pr
      cases hseg : splitFirst ';' segR.reverse with
      | none =>
        simp only [hrev, hseg, Prod.mk.injEq] at h
        exact Or.inl ⟨h.1.symm, h.2.symm⟩
      | some ab =>
        obtain ⟨a', b'⟩ := ab
        simp only [hrev, hseg, Prod.mk.injEq] at h
        obtain ⟨rfl, rfl⟩ : preR.reverse ++ '/' :: a' = a ∧ b' = b :=
          ⟨h.1, h.2⟩
        obtain ⟨hx1, hnsl⟩ := splitFirst_eq_some hrev
        obtain ⟨hx2, hnsc⟩ := splitFirst_eq_some hseg
        have hxfull : x = preR.reverse ++ '/' :: segR.reverse := by
          have := congrArg List.reverse hx1
          simpa using this
        have hslseg : '/' ∉ segR.reverse := by
          intro hc
          exact hnsl (List.mem_reverse.mp hc)
        right
        constructor
        · rw [hxfull, hx2]; simp
        · right
          refine ⟨preR.reverse, a', rfl, ?_, hnsc⟩
          intro hc
          exact hslseg (hx2 ▸ List.mem_append.mpr (Or.inl hc))
  · rw [if_neg hm] at h
    cases hsp : splitFirst ';' x with
    | none =>
      simp only [hsp, Prod.mk.injEq] at h
      exact Or.inl ⟨h.1.symm, h.2.symm⟩
    | some ab =>
      obtain ⟨a', b'⟩ := ab
      simp only [hsp, Prod.mk.injEq] at h
      obtain ⟨rfl, rfl⟩ : a' = a ∧ b' = b := ⟨h.1, h.2⟩
      obtain ⟨hx, hnsc⟩ := splitFirst_eq_some hsp
      refine Or.inr ⟨hx, Or.inl ⟨?_, hnsc⟩⟩
      intro hc
      exact hm (hx ▸ List.mem_append.mpr (Or.inl hc))

/-- `splitParams` leaves a path alone when its last segment has no
`;` (and the path has a `/`). -/
theorem splitParams_slash_id {P s : List Char} (hs1 : '/' ∉ s)
    (hs2 : ';' ∉ s) :
    splitParams (P ++ '/' :: s) = (P ++ '/' :: s, []) := by
  have hmem : '/' ∈ P ++ '/' :: s := List.mem_append.mpr (Or.inr (List.mem_cons_self _ _))
  have h1 : splitFirst '/' (P ++ '/' :: s).reverse =
      some (s.reverse, P.reverse) := by
    rw [show (P ++ '/' :: s).reverse = s.reverse ++ '/' :: P.reverse by simp]
    exact splitFirst_append _ (fun hc => hs1 (List.mem_reverse.mp hc))
  have h2 : splitFirst ';' s.reverse.reverse = none := by
    rw [List.reverse_reverse]
    exact splitFirst_eq_none.mpr hs2
  unfold splitParams
  rw [if_pos hmem]
  simp only [h1, h2]

/-- The params step is stable: re-splitting the re-joined path/params
pair returns it unchanged.  (`urlparse` of `urlunparse` output always
reproduces the same path and params components.) -/
theorem pathParams_rejoin_stable (scheme x : List Char) :
    pathParams scheme
        (rejoinParams (pathParams scheme x).1 (pathParams scheme x).2) =
      pathParams scheme x := by
  rcases hp : pathParams scheme x with ⟨a, b⟩
  unfold pathParams at hp
  by_cases hg : scheme ∈ USES_PARAMS ∧ ';' ∈ x
  · rw [if_pos hg] at hp
    rcases splitParams_struct hp with ⟨ha, hb⟩ | ⟨hx, hseg⟩
    · subst hb
      have hr : rejoinParams a [] = a := by simp [rejoinParams]
      rw [hr, ha]
      unfold pathParams
      rw [if_pos hg]
      exact ha ▸ hp
    · by_cases hbe : b = []
      · subst hbe
        have hr : rejoinParams a [] = a := by simp [rejoinParams]
        rw [hr]
        rcases hseg with ⟨_, hsa⟩ | ⟨P, s, rfl, hs1, hs2⟩
        · unfold pathParams
          rw [if_neg (fun hh => hsa hh.2)]
        · by_cases hin : ';' ∈ P ++ '/' :: s
          · unfold pathParams
            rw [if_pos ⟨hg.1, hin⟩, splitParams_slash_id hs1 hs2]
          · unfold pathParams
            rw [if_neg (fun hh => hin hh.2)]
      · have hr : rejoinParams a b = x := by
          rw [hx]; simp [rejoinParams, hbe]
        rw [hr]
        unfold pathParams
        rw [if_pos hg]
        exact hp
  · rw [if_neg hg] at hp
    simp only [Prod.mk.injEq] at hp
    obtain ⟨ha, hb⟩ := hp
    rw [← hb]
    have hr : rejoinParams a [] = a := by simp [rejoinParams]
    rw [hr, ← ha]
    unfold pathParams
    rw [if_neg hg]

/-- `rejoinParams` of the `pathParams` split is a prefix of the input
(the input itself, except that a dangling `;` with empty params is
dropped). -/
theorem rejoin_pathParams_pre (scheme x : List Char) :
    ∃ suf, x = rejoinParams (pathParams scheme x).1 (pathParams scheme x).2
      ++ suf := by
  rcases hp : pathParams scheme x with ⟨a, b⟩
  rcases pathParams_cases hp with ⟨ha, hb⟩ | hx
  · refine ⟨[], ?_⟩
    simp [rejoinParams, hb, ha.symm]
  · by_cases hbe : b = []
    · subst hbe
      refine ⟨[';'], ?_⟩
      simp [rejoinParams, hx]
    · refine ⟨[], ?_⟩
      simp [rejoinParams, hbe, hx]

theorem splitFirst_append_of_some {c : Char} {x a b : List Char}
    (h : splitFirst c x = some (a, b)) (y : List Char) :
    splitFirst c (x ++ y) = some (a, b ++ y) := by
  obtain ⟨hx, hnc⟩ := splitFirst_eq_some h
  rw [hx, List.append_assoc, List.cons_append]
  exact splitFirst_append _ hnc

/-- Prepending `/` to a path commutes with the params split. -/
theorem pathParams_cons_slash (scheme l : List Char) :
    pathParams scheme ('/' :: l) =
      ('/' :: (pathParams scheme l).1, (pathParams scheme l).2) := by
  have hgate : (scheme ∈ USES_PARAMS ∧ ';' ∈ '/' :: l) ↔
      (scheme ∈ USES_PARAMS ∧ ';' ∈ l) := by
    constructor
    · rintro ⟨h1, h2⟩
      rcases List.mem_cons.mp h2 with h | h
      · cases h
      · exact ⟨h1, h⟩
    · rintro ⟨h1, h2⟩
      exact ⟨h1, List.mem_cons_of_mem _ h2⟩
  by_cases hg : scheme ∈ USES_PARAMS ∧ ';' ∈ l
  · have h1 : pathParams scheme ('/' :: l) = splitParams ('/' :: l) := by
      unfold pathParams
      rw [if_pos (hgate.mpr hg)]
    have h2 : pathParams scheme l = splitParams l := by
      unfold pathParams
      rw [if_pos hg]
    rw [h1, h2]
    have hs2 : '/' ∈ '/' :: l := List.mem_cons_self _ _
    by_cases hml : '/' ∈ l
    · cases hrev : splitFirst '/' l.reverse with
      | none =>
        exact absurd (List.mem_reverse.mpr hml) (splitFirst_eq_none.mp hrev)
      | some pr =>
        obtain ⟨segR, preR⟩ := pr
        have hrev2 : splitFirst '/' (l.reverse ++ ['/']) =
            some (segR, preR ++ ['/']) :=
          splitFirst_append_of_some hrev ['/']
        cases hseg : splitFirst ';' segR.reverse with
        | none =>
          unfold splitParams
          rw [if_pos hs2, if_pos hml]
          simp [hrev, hrev2, hseg]
        | some ab =>
          obtain ⟨a', b'⟩ := ab
          unfold splitParams
          rw [if_pos hs2, if_pos hml]
          simp [hrev, hrev2, hseg]
    · cases hsp : splitFirst ';' l with
      | none => exact absurd hg.2 (splitFirst_eq_none.mp hsp)
      | some ab =>
        obtain ⟨a', b'⟩ := ab
        have hrev2 : splitFirst '/' (l.reverse ++ ['/']) =
            some (l.reverse, []) :=
          splitFirst_append _ (fun hc => hml (List.mem_reverse.mp hc))
        unfold splitParams
        rw [if_pos hs2, if_neg hml]
        simp [hrev2, hsp]
  · have h1 : pathParams scheme ('/' :: l) = ('/' :: l, []) := by
      unfold pathParams
      rw [if_neg (fun hh => hg (hgate.mp hh))]
    have h2 : pathParams scheme l = (l, []) := by
      unfold pathParams
      rw [if_neg hg]
    rw [h1, h2]

/-! ### Scheme-detection lemmas -/

theorem not_mem_of_pred {p : Char → Bool} {l : List Char}
    (h : ∀ x ∈ l, p x = true) {c : Char} (hc : p c = false) : c ∉ l := by
  intro hm
  rw [h c hm] at hc
  cases hc

theorem takeScheme_recover {s rest : List Char}
    (hall : ∀ x ∈ s, schemeChar x = true)
    (halpha : ∃ c cs, s = c :: cs ∧ c.isAlpha = true)
    (hlow : s.map Char.toLower = s) :
    takeScheme (s ++ ':' :: rest) = some (s, rest) := by
  obtain ⟨c, cs, rfl, hc⟩ := halpha
  have hnc : ':' ∉ c :: cs := fun hm => schemeChar_ne_colon (hall _ hm) rfl
  have hcond : (c.isAlpha && (c :: cs).all schemeChar) = true := by
    rw [Bool.and_eq_true]
    exact ⟨hc, List.all_eq_true.mpr hall⟩
  unfold takeScheme
  rw [splitFirst_append _ hnc]
  dsimp only
  rw [if_pos hcond, hlow]

theorem takeScheme_none_head {c : Char} {rest : List Char}
    (hc : c.isAlpha = false) : takeScheme (c :: rest) = none := by
  unfold takeScheme
  cases hsp : splitFirst ':' (c :: rest) with
  | none => rfl
  | some p =>
    obtain ⟨pre, post⟩ := p
    obtain ⟨hx, _⟩ := splitFirst_eq_some hsp
    cases pre with
    | nil => rfl
    | cons p0 ps =>
      have hp0 : p0 = c := by
        have h5 := congrArg (fun l => l.head?) hx
        simpa using h5.symm
      subst hp0
      dsimp only
      rw [if_neg]
      intro hcond
      rw [Bool.and_eq_true] at hcond
      rw [hcond.1] at hc
      cases hc

/-- `l` contains no viable scheme prefix: whatever stands before its
first `:` fails the scheme test. -/
def noSchemeList (l : List Char) : Prop :=
  ∀ pre tail, l = pre ++ ':' :: tail → ':' ∉ pre →
    pre = [] ∨ ∃ c cs, pre = c :: cs ∧
      (c.isAlpha = false ∨ (c :: cs).all schemeChar = false)

theorem noSchemeList_of_slash {l : List Char}
    (h : l = [] ∨ l.take 1 = ['/']) : noSchemeList l := by
  intro pre tail hl hnc
  cases pre with
  | nil => exact Or.inl rfl
  | cons c cs =>
    right
    refine ⟨c, cs, rfl, Or.inl ?_⟩
    rcases h with rfl | h
    · cases hl
    · have htake : l.take 1 = [c] := by rw [hl]; rfl
      have h2 : (['/'] : List Char) = [c] := h.symm.trans htake
      have hc : c = '/' := by
        injection h2 with h3 _
        exact h3.symm
      subst hc
      rfl

theorem noSchemeList_of_parse_none {l pp : List Char}
    (hts : takeScheme l = none) (hpre : ∃ suf, l = pp ++ suf) :
    noSchemeList pp := by
  intro pre tail hl hnc
  obtain ⟨suf, rfl⟩ := hpre
  cases pre with
  | nil => exact Or.inl rfl
  | cons p0 ps =>
    right
    refine ⟨p0, ps, rfl, ?_⟩
    have hleq : pp ++ suf = (p0 :: ps) ++ ':' :: (tail ++ suf) := by
      rw [hl, List.append_assoc]
      rfl
    have hsp : splitFirst ':' (pp ++ suf) = some (p0 :: ps, tail ++ suf) := by
      rw [hleq]
      exact splitFirst_append _ hnc
    unfold takeScheme at hts
    rw [hsp] at hts
    dsimp only at hts
    by_cases ha : p0.isAlpha = true
    · by_cases hb : (p0 :: ps).all schemeChar = true
      · rw [if_pos (by rw [Bool.and_eq_true]; exact ⟨ha, hb⟩)] at hts
        cases hts
      · exact Or.inr (Bool.eq_false_iff.mpr hb)
    · exact Or.inl (Bool.eq_false_iff.mpr ha)

theorem takeScheme_eq_none_of {l qp : List Char} (hl : noSchemeList l)
    (hqp : qp = [] ∨ ∃ q', qp = '?' :: q') :
    takeScheme (l ++ qp) = none := by
  cases hsp : splitFirst ':' (l ++ qp) with
  | none => unfold takeScheme; rw [hsp]
  | some p =>
    obtain ⟨pre, post⟩ := p
    obtain ⟨hx, hnc⟩ := splitFirst_eq_some hsp
    rcases List.append_eq_append_iff.mp hx with ⟨a', ha1, ha2⟩ | ⟨c', hc1, hc2⟩
    · -- pre = l ++ a', qp = a' ++ ':' :: post : the colon sits in qp
      rcases hqp with rfl | ⟨q', rfl⟩
      · exact absurd ha2.symm (by simp)
      · cases a' with
        | nil =>
          simp only [List.nil_append] at ha2
          injection ha2 with h5 _
          exact absurd h5 (by decide)
        | cons y a'' =>
          rw [List.cons_append] at ha2
          injection ha2 with h5 h6
          subst h5
          have hqpre : '?' ∈ pre := by
            rw [ha1]
            exact List.mem_append.mpr (Or.inr (List.mem_cons_self _ _))
          cases hpre : pre with
          | nil => rw [hpre] at hqpre; cases hqpre
          | cons p0 ps =>
            subst hpre
            unfold takeScheme
            rw [hsp]
            dsimp only
            rw [if_neg]
            intro hcond
            rw [Bool.and_eq_true] at hcond
            have h7 := List.all_eq_true.mp hcond.2 '?' hqpre
            simp [schemeChar] at h7
    · -- l = pre ++ c', ':' :: post = c' ++ qp : the colon sits in l
      cases c' with
      | nil =>
        simp only [List.nil_append] at hc2
        rcases hqp with rfl | ⟨q', rfl⟩
        · cases hc2
        · injection hc2 with h5 _
          exact absurd h5 (by decide)
      | cons x c'' =>
        rw [List.cons_append] at hc2
        injection hc2 with h5 h6
        subst h5
        have hlx : l = pre ++ ':' :: c'' := hc1
        rcases hl pre c'' hlx hnc with hpre | ⟨c, cs, hpre, hbad⟩
        · subst hpre
          unfold takeScheme
          rw [hsp]
        · subst hpre
          unfold takeScheme
          rw [hsp]
          dsimp only
          rw [if_neg]
          intro hcond
          rw [Bool.and_eq_true] at hcond
          rcases hbad with hb | hb
          · rw [hcond.1] at hb; cases hb
          · rw [hcond.2] at hb; cases hb

theorem noSchemeList_mono {x pp : List Char} (h : noSchemeList x)
    (hpre : ∃ suf, x = pp ++ suf) : noSchemeList pp := by
  intro pre tail hl hnc
  obtain ⟨suf, rfl⟩ := hpre
  exact h pre (tail ++ suf) (by rw [hl, List.append_assoc]; rfl) hnc

theorem take_one_of_pre {x pp : List Char} (hpre : ∃ suf, x = pp ++ suf)
    (hx : x = [] ∨ x.take 1 = ['/']) : pp = [] ∨ pp.take 1 = ['/'] := by
  obtain ⟨suf, rfl⟩ := hpre
  cases pp with
  | nil => exact Or.inl rfl
  | cons c cs =>
    right
    rcases hx with hx | hx
    · cases hx
    · exact hx

theorem dropWhile_spec (p : Char → Bool) (l : List Char) :
    l.dropWhile p = [] ∨
      ∃ c cs, l.dropWhile p = c :: cs ∧ p c = false := by
  induction l with
  | nil => simp
  | cons x xs ih =>
    by_cases hx : p x = true
    · simpa [List.dropWhile_cons, hx] using ih
    · right
      refine ⟨x, xs, ?_, Bool.eq_false_iff.mpr hx⟩
      simp [List.dropWhile_cons, hx]

theorem takeScheme_some_spec {l sch rest : List Char}
    (h : takeScheme l = some (sch, rest)) :
    (∀ x ∈ sch, schemeChar x = true) ∧
    (∃ c cs, sch = c :: cs ∧ c.isAlpha = true) ∧
    sch.map Char.toLower = sch := by
  unfold takeScheme at h
  cases hsp : splitFirst ':' l with
  | none => rw [hsp] at h; cases h
  | some p =>
    obtain ⟨pre, post⟩ := p
    rw [hsp] at h
    cases pre with
    | nil => cases h
    | cons p0 ps =>
      dsimp only at h
      by_cases hcond : (p0.isAlpha && (p0 :: ps).all schemeChar) = true
      · rw [if_pos hcond] at h
        rw [Bool.and_eq_true] at hcond
        simp only [Option.some.injEq, Prod.mk.injEq] at h
        obtain ⟨hsch, _⟩ := h
        subst hsch
        refine ⟨?_, ?_, toLower_map_idem _⟩
        · intro x hx
          obtain ⟨y, hy, rfl⟩ := List.mem_map.mp hx
          exact schemeChar_toLower (List.all_eq_true.mp hcond.2 y hy)
        · exact ⟨Char.toLower p0, ps.map Char.toLower, rfl,
            isAlpha_toLower hcond.1⟩
      · rw [if_neg hcond] at h
        cases h

/-- Everything `pyUrlsplit l = .ok s` implies, extracted once. -/
theorem pyUrlsplit_ok_elim {l : List Char} {s : SplitResult}
    (h : pyUrlsplit l = .ok s) :
    ∃ scheme rest netloc rest2,
      ((takeScheme l = none ∧ scheme = [] ∧ rest = l) ∨
        takeScheme l = some (scheme, rest)) ∧
      ((rest.take 2 = ['/', '/'] ∧
          netloc = (rest.drop 2).takeWhile notNetlocDelim ∧
          rest2 = (rest.drop 2).dropWhile notNetlocDelim) ∨
        (rest.take 2 ≠ ['/', '/'] ∧ netloc = [] ∧ rest2 = rest)) ∧
      bracketBad netloc = false ∧
      ∃ path3 fragment path query,
        ((splitFirst '#' rest2 = none ∧ path3 = rest2 ∧ fragment = []) ∨
          splitFirst '#' rest2 = some (path3, fragment)) ∧
        ((splitFirst '?' path3 = none ∧ path = path3 ∧ query = []) ∨
          splitFirst '?' path3 = some (path, query)) ∧
        s = ⟨scheme, netloc, path, query, fragment⟩ := by
  unfold pyUrlsplit pyUrlsplitD at h
  cases hts : takeScheme l with
  | none =>
    rw [hts] at h
    dsimp only at h
    refine ⟨[], l, ?_⟩
    by_cases h2 : l.take 2 = ['/', '/']
    · rw [if_pos h2] at h
      refine ⟨(l.drop 2).takeWhile notNetlocDelim,
        (l.drop 2).dropWhile notNetlocDelim,
        Or.inl ⟨rfl, rfl, rfl⟩, Or.inl ⟨h2, rfl, rfl⟩, ?_⟩
      by_cases hbr : bracketBad ((l.drop 2).takeWhile notNetlocDelim) = true
      · rw [if_pos hbr] at h; cases h
      · rw [if_neg hbr] at h
        refine ⟨Bool.eq_false_iff.mpr hbr, ?_⟩
        cases hff : splitFirst '#' ((l.drop 2).dropWhile notNetlocDelim) with
        | none =>
          rw [hff] at h
          dsimp only at h
          cases hqq : splitFirst '?' ((l.drop 2).dropWhile notNetlocDelim) with
          | none =>
            rw [hqq] at h
            dsimp only at h
            simp only [Except.ok.injEq] at h
            exact ⟨_, [], _, [], Or.inl ⟨rfl, rfl, rfl⟩,
              Or.inl ⟨hqq, rfl, rfl⟩, h.symm⟩
          | some qq =>
            obtain ⟨qa, qb⟩ := qq
            rw [hqq] at h
            dsimp only at h
            simp only [Except.ok.injEq] at h
            exact ⟨_, [], qa, qb, Or.inl ⟨rfl, rfl, rfl⟩, Or.inr hqq, h.symm⟩
        | some ff =>
          obtain ⟨fa, fb⟩ := ff
          rw [hff] at h
          dsimp only at h
          cases hqq : splitFirst '?' fa with
          | none =>
            rw [hqq] at h
            dsimp only at h
            simp only [Except.ok.injEq] at h
            exact ⟨fa, fb, fa, [], Or.inr rfl, Or.inl ⟨hqq, rfl, rfl⟩, h.symm⟩
          | some qq =>
            obtain ⟨qa, qb⟩ := qq
            rw [hqq] at h
            dsimp only at h
            simp only [Except.ok.injEq] at h
            exact ⟨fa, fb, qa, qb, Or.inr rfl, Or.inr hqq, h.symm⟩
    · rw [if_neg h2] at h
      refine ⟨[], l, Or.inl ⟨rfl, rfl, rfl⟩, Or.inr ⟨h2, rfl, rfl⟩, ?_⟩
      by_cases hbr : bracketBad ([] : List Char) = true
      · rw [if_pos hbr] at h; cases h
      · rw [if_neg hbr] at h
        refine ⟨Bool.eq_false_iff.mpr hbr, ?_⟩
        cases hff : splitFirst '#' l with
        | none =>
          rw [hff] at h
          dsimp only at h
          cases hqq : splitFirst '?' l with
          | none =>
            rw [hqq] at h
            dsimp only at h
            simp only [Except.ok.injEq] at h
            exact ⟨l, [], l, [], Or.inl ⟨rfl, rfl, rfl⟩,
              Or.inl ⟨hqq, rfl, rfl⟩, h.symm⟩
          | some qq =>
            obtain ⟨qa, qb⟩ := qq
            rw [hqq] at h
            dsimp only at h
            simp only [Except.ok.injEq] at h
            exact ⟨l, [], qa, qb, Or.inl ⟨rfl, rfl, rfl⟩, Or.inr hqq, h.symm⟩
        | some ff =>
          obtain ⟨fa, fb⟩ := ff
          rw [hff] at h
          dsimp only at h
          cases hqq : splitFirst '?' fa with
          | none =>
            rw [hqq] at h
            dsimp only at h
            simp only [Except.ok.injEq] at h
            exact ⟨fa, fb, fa, [], Or.inr rfl, Or.inl ⟨hqq, rfl, rfl⟩, h.symm⟩
          | some qq =>
            obtain ⟨qa, qb⟩ := qq
            rw [hqq] at h
            dsimp only at h
            simp only [Except.ok.injEq] at h
            exact ⟨fa, fb, qa, qb, Or.inr rfl, Or.inr hqq, h.symm⟩
  | some sr =>
    obtain ⟨sch, rest⟩ := sr
    rw [hts] at h
    dsimp only at h
    refine ⟨sch, rest, ?_⟩
    by_cases h2 : rest.take 2 = ['/', '/']
    · rw [if_pos h2] at h
      refine ⟨(rest.drop 2).takeWhile notNetlocDelim,
        (rest.drop 2).dropWhile notNetlocDelim,
        Or.inr rfl, Or.inl ⟨h2, rfl, rfl⟩, ?_⟩
      by_cases hbr : bracketBad ((rest.drop 2).takeWhile notNetlocDelim) = true
      · rw [if_pos hbr] at h; cases h
      · rw [if_neg hbr] at h
        refine ⟨Bool.eq_false_iff.mpr hbr, ?_⟩
        cases hff : splitFirst '#' ((rest.drop 2).dropWhile notNetlocDelim) with
        | none =>
          rw [hff] at h
          dsimp only at h
          cases hqq : splitFirst '?' ((rest.drop 2).dropWhile notNetlocDelim) with
          | none =>
            rw [hqq] at h
            dsimp only at h
            simp only [Except.ok.injEq] at h
            exact ⟨_, [], _, [], Or.inl ⟨rfl, rfl, rfl⟩,
              Or.inl ⟨hqq, rfl, rfl⟩, h.symm⟩
          | some qq =>
            obtain ⟨qa, qb⟩ := qq
            rw [hqq] at h
            dsimp only at h
            simp only [Except.ok.injEq] at h
            exact ⟨_, [], qa, qb, Or.inl ⟨rfl, rfl, rfl⟩, Or.inr hqq, h.symm⟩
        | some ff =>
          obtain ⟨fa, fb⟩ := ff
          rw [hff] at h
          dsimp only at h
          cases hqq : splitFirst '?' fa with
          | none =>
            rw [hqq] at h
            dsimp only at h
            simp only [Except.ok.injEq] at h
            exact ⟨fa, fb, fa, [], Or.inr rfl, Or.inl ⟨hqq, rfl, rfl⟩, h.symm⟩
          | some qq =>
            obtain ⟨qa, qb⟩ := qq
            rw [hqq] at h
            dsimp only at h
            simp only [Except.ok.injEq] at h
            exact ⟨fa, fb, qa, qb, Or.inr rfl, Or.inr hqq, h.symm⟩
    · rw [if_neg h2] at h
      refine ⟨[], rest, Or.inr rfl, Or.inr ⟨h2, rfl, rfl⟩, ?_⟩
      by_cases hbr : bracketBad ([] : List Char) = true
      · rw [if_pos hbr] at h; cases h
      · rw [if_neg hbr] at h
        refine ⟨Bool.eq_false_iff.mpr hbr, ?_⟩
        cases hff : splitFirst '#' rest with
        | none =>
          rw [hff] at h
          dsimp only at h
          cases hqq : splitFirst '?' rest with
          | none =>
            rw [hqq] at h
            dsimp only at h
            simp only [Except.ok.injEq] at h
            exact ⟨rest, [], rest, [], Or.inl ⟨rfl, rfl, rfl⟩,
              Or.inl ⟨hqq, rfl, rfl⟩, h.symm⟩
          | some qq =>
            obtain ⟨qa, qb⟩ := qq
            rw [hqq] at h
            dsimp only at h
            simp only [Except.ok.injEq] at h
            exact ⟨rest, [], qa, qb, Or.inl ⟨rfl, rfl, rfl⟩, Or.inr hqq, h.symm⟩
        | some ff =>
          obtain ⟨fa, fb⟩ := ff
          rw [hff] at h
          dsimp only at h
          cases hqq : splitFirst '?' fa with
          | none =>
            rw [hqq] at h
            dsimp only at h
            simp only [Except.ok.injEq] at h
            exact ⟨fa, fb, fa, [], Or.inr rfl, Or.inl ⟨hqq, rfl, rfl⟩, h.symm⟩
          | some qq =>
            obtain ⟨qa, qb⟩ := qq
            rw [hqq] at h
            dsimp only at h
            simp only [Except.ok.injEq] at h
            exact ⟨fa, fb, qa, qb, Or.inr rfl, Or.inr hqq, h.symm⟩

theorem pre_trans {a b c : List Char} (h1 : ∃ s, a = b ++ s)
    (h2 : ∃ s, b = c ++ s) : ∃ s, a = c ++ s := by
  obtain ⟨s1, rfl⟩ := h1
  obtain ⟨s2, rfl⟩ := h2
  exact ⟨s2 ++ s1, by rw [List.append_assoc]⟩

theorem notNetlocDelim_false {c : Char} (h : notNetlocDelim c = false) :
    c = '/' ∨ c = '?' ∨ c = '#' := by
  simp only [notNetlocDelim, Bool.not_eq_false', Bool.or_eq_true,
    decide_eq_true_eq] at h
  tauto

/-- The invariant every successful `urlparse` result satisfies, in the
form needed to reparse `urlunparse` output. -/
structure UrlInv (p : ParseResult) : Prop where
  scheme_all : ∀ x ∈ p.scheme, schemeChar x = true
  scheme_alpha : p.scheme = [] ∨ ∃ c cs, p.scheme = c :: cs ∧ c.isAlpha = true
  scheme_low : p.scheme.map Char.toLower = p.scheme
  netloc_nd : ∀ x ∈ p.netloc, notNetlocDelim x = true
  netloc_br : bracketBad p.netloc = false
  path_h : '#' ∉ p.path
  path_q : '?' ∉ p.path
  par_h : '#' ∉ p.params
  par_q : '?' ∉ p.params
  query_h : '#' ∉ p.query
  pp_st : pathParams p.scheme (rejoinParams p.path p.params) =
    (p.path, p.params)
  shape : p.netloc ≠ [] → rejoinParams p.path p.params = [] ∨
    (rejoinParams p.path p.params).take 1 = ['/']
  noFake : p.scheme = [] → p.netloc = [] →
    noSchemeList (rejoinParams p.path p.params)

theorem pyUrlparse_ok_inv {l : List Char} {p : ParseResult}
    (h : pyUrlparse l = .ok p) : UrlInv p := by
  unfold pyUrlparse pyUrlparseD at h
  cases hs : pyUrlsplitD [] l with
  | error e => rw [hs] at h; cases h
  | ok s =>
    rw [hs] at h
    dsimp only at h
    simp only [Except.ok.injEq] at h
    obtain ⟨scheme, rest, netloc, rest2, hsch, hnl, hbr, path3, fragment,
      path0, query, hff, hqq, hseq⟩ := pyUrlsplit_ok_elim hs
    subst hseq
    subst h
    dsimp only at *
    -- facts about path0/query from the fragment/query splits
    have hpath0 : '#' ∉ path0 ∧ '?' ∉ path0 ∧ '#' ∉ query ∧
        ∃ suf, rest2 = path0 ++ suf := by
      have h3 : '#' ∉ path3 ∧ ∃ suf, rest2 = path3 ++ suf := by
        rcases hff with ⟨hn, rfl, _⟩ | hsome
        · exact ⟨splitFirst_eq_none.mp hn, [], by simp⟩
        · obtain ⟨he, hni⟩ := splitFirst_eq_some hsome
          exact ⟨hni, '#' :: fragment, he⟩
      obtain ⟨h3h, h3pre⟩ := h3
      rcases hqq with ⟨hn, rfl, rfl⟩ | hsome
      · exact ⟨h3h, splitFirst_eq_none.mp hn, by simp, h3pre⟩
      · obtain ⟨he, hni⟩ := splitFirst_eq_some hsome
        refine ⟨?_, hni, ?_, pre_trans h3pre ⟨'?' :: query, he⟩⟩
        · intro hc
          exact h3h (he ▸ List.mem_append.mpr (Or.inl hc))
        · intro hc
          exact h3h (he ▸ List.mem_append.mpr
            (Or.inr (List.mem_cons_of_mem _ hc)))
    obtain ⟨hp0h, hp0q, hqh, hp0pre⟩ := hpath0
    -- facts about the scheme
    have hschf : (∀ x ∈ scheme, schemeChar x = true) ∧
        (scheme = [] ∨ ∃ c cs, scheme = c :: cs ∧ c.isAlpha = true) ∧
        scheme.map Char.toLower = scheme ∧
        (scheme = [] → takeScheme l = none ∧ rest = l) := by
      rcases hsch with ⟨hn, rfl, rfl⟩ | hsome
      · exact ⟨by simp, Or.inl rfl, rfl, fun _ => ⟨hn, rfl⟩⟩
      · obtain ⟨h1, h2, h3⟩ := takeScheme_some_spec hsome
        refine ⟨h1, Or.inr h2, h3, fun he => ?_⟩
        obtain ⟨c, cs, hcc, _⟩ := h2
        rw [he] at hcc
        cases hcc
    obtain ⟨hsall, hsalpha, hslow, hsnil⟩ := hschf
    -- branch facts
    have hbranch : (∀ x ∈ netloc, notNetlocDelim x = true) ∧
        (netloc ≠ [] → path0 = [] ∨ path0.take 1 = ['/']) ∧
        ((rest2 = rest ∧ netloc = []) ∨
          (path0 = [] ∨ path0.take 1 = ['/'])) := by
      rcases hnl with ⟨h2, rfl, rfl⟩ | ⟨h2, rfl, rfl⟩
      · have hnd : ∀ x ∈ (rest.drop 2).takeWhile notNetlocDelim,
            notNetlocDelim x = true := fun x hx => List.mem_takeWhile_imp hx
        have hshape : path0 = [] ∨ path0.take 1 = ['/'] := by
          cases hp0 : path0 with
          | nil => exact Or.inl rfl
          | cons c cs =>
            right
            obtain ⟨suf, hsuf⟩ := hp0pre
            rw [hp0] at hsuf
            rcases dropWhile_spec notNetlocDelim (rest.drop 2) with hd | ⟨d, ds, hd, hdf⟩
            · rw [hd] at hsuf
              cases hsuf
            · rw [hd] at hsuf
              simp only [List.cons_append, List.cons.injEq] at hsuf
              obtain ⟨hcd, -⟩ := hsuf
              subst hcd
              rcases notNetlocDelim_false hdf with rfl | rfl | rfl
              · rfl
              · exact absurd (show '?' ∈ path0 by
                  rw [hp0]; exact List.mem_cons_self _ _) hp0q
              · exact absurd (show '#' ∈ path0 by
                  rw [hp0]; exact List.mem_cons_self _ _) hp0h
        exact ⟨hnd, fun _ => hshape, Or.inr hshape⟩
      · exact ⟨by simp, fun hc => absurd rfl hc, Or.inl ⟨rfl, rfl⟩⟩
    obtain ⟨hnd, hshape, hbr2⟩ := hbranch
    -- path/params facts via pathParams
    have hrejpre : ∃ suf, path0 = rejoinParams (pathParams scheme path0).1
        (pathParams scheme path0).2 ++ suf := rejoin_pathParams_pre scheme path0
    refine ⟨hsall, hsalpha, hslow, hnd, hbr, ?_, ?_, ?_, ?_, hqh, ?_, ?_, ?_⟩
    · exact fun hc => hp0h (mem_of_mem_pathParams_fst hc)
    · exact fun hc => hp0q (mem_of_mem_pathParams_fst hc)
    · exact fun hc => hp0h (mem_of_mem_pathParams_snd hc)
    · exact fun hc => hp0q (mem_of_mem_pathParams_snd hc)
    · exact pathParams_rejoin_stable scheme path0
    · intro hne
      exact take_one_of_pre hrejpre (hshape hne)
    · intro hsc hnc
      rcases hbr2 with ⟨hr2, _⟩ | hsl
      · obtain ⟨hts, hrl⟩ := hsnil hsc
        have hl_pre : ∃ suf, l = path0 ++ suf := by
          rw [← hrl, ← hr2]
          exact hp0pre
        exact noSchemeList_of_parse_none hts (pre_trans hl_pre hrejpre)
      · exact noSchemeList_of_slash (take_one_of_pre hrejpre hsl)

/-- Constructive evaluation of `pyUrlsplit` from facts about each
splitting stage. -/
theorem pyUrlsplit_eval {X R NL R2 PA QU SCH : List Char}
    (hts : (takeScheme X = none ∧ SCH = [] ∧ R = X) ∨
      takeScheme X = some (SCH, R))
    (hnp : (R.take 2 = ['/', '/'] ∧ NL = (R.drop 2).takeWhile notNetlocDelim ∧
        R2 = (R.drop 2).dropWhile notNetlocDelim) ∨
      (R.take 2 ≠ ['/', '/'] ∧ NL = [] ∧ R2 = R))
    (hbr : bracketBad NL = false)
    (hf : '#' ∉ R2)
    (hq : (splitFirst '?' R2 = none ∧ PA = R2 ∧ QU = []) ∨
      splitFirst '?' R2 = some (PA, QU)) :
    pyUrlsplit X = .ok ⟨SCH, NL, PA, QU, []⟩ := by
  unfold pyUrlsplit pyUrlsplitD
  have hff : splitFirst '#' R2 = none := splitFirst_eq_none.mpr hf
  rcases hts with ⟨hts, rfl, rfl⟩ | hts
  · rw [hts]
    dsimp only
    rcases hnp with ⟨h2, rfl, rfl⟩ | ⟨h2, rfl, rfl⟩
    · rw [if_pos h2, if_neg (by simp [hbr])]
      rw [hff]
      dsimp only
      rcases hq with ⟨hqn, rfl, rfl⟩ | hqs
      · rw [hqn]
      · rw [hqs]
    · rw [if_neg h2, if_neg (by simp [hbr])]
      rw [hff]
      dsimp only
      rcases hq with ⟨hqn, rfl, rfl⟩ | hqs
      · rw [hqn]
      · rw [hqs]
  · rw [hts]
    dsimp only
    rcases hnp with ⟨h2, rfl, rfl⟩ | ⟨h2, rfl, rfl⟩
    · rw [if_pos h2, if_neg (by simp [hbr])]
      rw [hff]
      dsimp only
      rcases hq with ⟨hqn, rfl, rfl⟩ | hqs
      · rw [hqn]
      · rw [hqs]
    · rw [if_neg h2, if_neg (by simp [hbr])]
      rw [hff]
      dsimp only
      rcases hq with ⟨hqn, rfl, rfl⟩ | hqs
      · rw [hqn]
      · rw [hqs]

theorem pyUrlparse_eval {X : List Char} {s : SplitResult}
    (h : pyUrlsplit X = .ok s) :
    pyUrlparse X = .ok ⟨s.scheme, s.netloc, (pathParams s.scheme s.path).1,
      (pathParams s.scheme s.path).2, s.query, s.fragment⟩ := by
  unfold pyUrlparse pyUrlparseD
  unfold pyUrlsplit at h
  rw [h]

theorem rejoin_cons_slash (a b : List Char) :
    rejoinParams ('/' :: a) b = '/' :: rejoinParams a b := by
  unfold rejoinParams
  by_cases hb : b ≠ []
  · rw [if_pos hb, if_pos hb]
    rfl
  · rw [if_neg hb, if_neg hb]

theorem take2_append_ne {A qp : List Char}
    (hA : A.take 2 ≠ ['/', '/'])
    (hqp : qp = [] ∨ ∃ r, qp = '?' :: r) :
    (A ++ qp).take 2 ≠ ['/', '/'] := by
  match A with
  | c1 :: c2 :: t => exact hA
  | [] =>
    rcases hqp with rfl | ⟨r, rfl⟩
    · simp
    · intro hc
      rcases r with _ | ⟨r0, rs⟩ <;> cases hc
  | [c] =>
    rcases hqp with rfl | ⟨r, rfl⟩
    · simp
    · intro hc
      injection hc with h1 h2
      cases h2

theorem delim_head {A qp : List Char}
    (hA : A = [] ∨ A.take 1 = ['/'])
    (hqp : qp = [] ∨ ∃ r, qp = '?' :: r) :
    A ++ qp = [] ∨ ∃ c cs, A ++ qp = c :: cs ∧ notNetlocDelim c = false := by
  cases A with
  | nil =>
    rcases hqp with rfl | ⟨r, rfl⟩
    · exact Or.inl rfl
    · exact Or.inr ⟨'?', r, rfl, by decide⟩
  | cons c cs =>
    rcases hA with hA | hA
    · cases hA
    · have hc : c = '/' := by
        have h2 : ([c] : List Char) = ['/'] := hA
        simpa using h2
      subst hc
      exact Or.inr ⟨'/', cs ++ qp, rfl, by decide⟩

/-! ### Query-filter lemmas -/

theorem mem_filterQuery {q : List Char} {d : Char}
    (h : d ∈ filterQuery q) : d = '&' ∨ d ∈ q := by
  unfold filterQuery at h
  rcases mem_joinAll h with rfl | ⟨p, hp, hdp⟩
  · exact Or.inl rfl
  · exact Or.inr (mem_of_mem_mem_splitAll (List.mem_of_mem_filter hp) hdp)

theorem filterQuery_fix {q : List Char} (h : filterQuery q ≠ []) :
    filterQuery (filterQuery q) = filterQuery q := by
  unfold filterQuery at h ⊢
  set pred := fun part => !isTrackingKey (queryKey part) with hpred
  set parts := (splitAll '&' q).filter pred with hparts
  have hne : parts ≠ [] := by
    intro hc
    rw [hc] at h
    exact h rfl
  have hfree : ∀ p ∈ parts, '&' ∉ p := fun p hp =>
    not_mem_of_mem_splitAll (List.mem_of_mem_filter hp)
  rw [splitAll_joinAll parts hne hfree]
  have hall : ∀ p ∈ parts, pred p = true := fun p hp =>
    (List.mem_filter.mp hp).2
  rw [List.filter_eq_self.mpr hall]

/-! ### The normalize transform and the reparse round trip -/

theorem normalizeTransform_qfix (p : ParseResult) :
    (normalizeTransform p).query ≠ [] →
      filterQuery (normalizeTransform p).query = (normalizeTransform p).query := by
  unfold normalizeTransform
  by_cases hq : p.query ≠ []
  · rw [if_pos hq]
    intro hne
    exact filterQuery_fix hne
  · rw [if_neg hq]
    intro hne
    exact absurd hne hq

theorem normalizeTransform_frag (p : ParseResult) :
    (normalizeTransform p).fragment = [] := by
  unfold normalizeTransform
  by_cases hq : p.query ≠ [] <;> simp [hq]

theorem urlInv_transform {p : ParseResult} (h : UrlInv p) :
    UrlInv (normalizeTransform p) := by
  unfold normalizeTransform
  by_cases hq : p.query ≠ []
  · rw [if_pos hq]
    refine ⟨h.scheme_all, h.scheme_alpha, h.scheme_low, h.netloc_nd,
      h.netloc_br, h.path_h, h.path_q, h.par_h, h.par_q, ?_, h.pp_st,
      h.shape, h.noFake⟩
    intro hc
    rcases mem_filterQuery hc with he | hm
    · exact absurd he (by decide)
    · exact h.query_h hm
  · rw [if_neg hq]
    exact ⟨h.scheme_all, h.scheme_alpha, h.scheme_low, h.netloc_nd,
      h.netloc_br, h.path_h, h.path_q, h.par_h, h.par_q, h.query_h,
      h.pp_st, h.shape, h.noFake⟩

theorem normalizeTransform_fix {q : ParseResult} (hfr : q.fragment = [])
    (hqf : q.query ≠ [] → filterQuery q.query = q.query) :
    normalizeTransform q = q := by
  obtain ⟨s, n, pa, par, qu, fr⟩ := q
  have hFR : fr = [] := hfr
  subst hFR
  unfold normalizeTransform
  by_cases hq : qu ≠ []
  · rw [if_pos hq]
    simp [hqf hq]
  · rw [if_neg hq]

/-- Re-parsing the unparse of a normalized parse result.  The parse
succeeds, the result unparses to the same string and is a fixed point
of the normalize transform.  The hypothesis excludes the one corner
where CPython 3.11's `urlunsplit` is lossy: an empty netloc together
with a path that begins with `//`. -/
theorem unparse_reparse {q : ParseResult} (inv : UrlInv q)
    (hfr : q.fragment = [])
    (hqf : q.query ≠ [] → filterQuery q.query = q.query)
    (hmain : q.netloc ≠ [] ∨
      (rejoinParams q.path q.params).take 2 ≠ ['/', '/']) :
    ∃ q', pyUrlparse (pyUrlunparse q) = .ok q' ∧
      pyUrlunparse q' = pyUrlunparse q ∧
      normalizeTransform q' = q' := by
  obtain ⟨SCH, NL, PTH, PAR, QU, FR⟩ := q
  have hFR : FR = [] := hfr
  subst hFR
  have hall : ∀ x ∈ SCH, schemeChar x = true := inv.scheme_all
  have halpha : SCH = [] ∨ ∃ c cs, SCH = c :: cs ∧ c.isAlpha = true :=
    inv.scheme_alpha
  have hlow : SCH.map Char.toLower = SCH := inv.scheme_low
  have hnd : ∀ x ∈ NL, notNetlocDelim x = true := inv.netloc_nd
  have hbr : bracketBad NL = false := inv.netloc_br
  have hPh : '#' ∉ PTH := inv.path_h
  have hPq : '?' ∉ PTH := inv.path_q
  have hparh : '#' ∉ PAR := inv.par_h
  have hparq : '?' ∉ PAR := inv.par_q
  have hQh : '#' ∉ QU := inv.query_h
  have hpp : pathParams SCH (rejoinParams PTH PAR) = (PTH, PAR) := inv.pp_st
  have hshape : NL ≠ [] → rejoinParams PTH PAR = [] ∨
      (rejoinParams PTH PAR).take 1 = ['/'] := inv.shape
  have hnofake : SCH = [] → NL = [] →
      noSchemeList (rejoinParams PTH PAR) := inv.noFake
  have hp1h : '#' ∉ rejoinParams PTH PAR := by
    intro hc
    rcases mem_rejoinParams hc with h | h | h
    · exact hPh h
    · exact absurd h (by decide)
    · exact hparh h
  have hp1q : '?' ∉ rejoinParams PTH PAR := by
    intro hc
    rcases mem_rejoinParams hc with h | h | h
    · exact hPq h
    · exact absurd h (by decide)
    · exact hparq h
  set qp := (if QU ≠ [] then '?' :: QU else ([] : List Char)) with hqpdef
  have hqp : qp = [] ∨ ∃ r, qp = '?' :: r := by
    by_cases hq : QU ≠ []
    · exact Or.inr ⟨QU, by rw [hqpdef, if_pos hq]⟩
    · exact Or.inl (by rw [hqpdef, if_neg hq])
  have hqph : '#' ∉ qp := by
    by_cases hq : QU ≠ []
    · rw [hqpdef, if_pos hq]
      intro hc
      rcases List.mem_cons.mp hc with hc | hc
      · cases hc
      · exact hQh hc
    · rw [hqpdef, if_neg hq]
      simp
  have hqapp : ∀ url : List Char,
      (if QU ≠ [] then url ++ '?' :: QU else url) = url ++ qp := by
    intro url
    by_cases hq : QU ≠ []
    · rw [hqpdef, if_pos hq, if_pos hq]
    · rw [hqpdef, if_neg hq, if_neg hq, List.append_nil]
  have hqsplit : ∀ A : List Char, '?' ∉ A →
      ((splitFirst '?' (A ++ qp) = none ∧ A = A ++ qp ∧ QU = []) ∨
        splitFirst '?' (A ++ qp) = some (A, QU)) := by
    intro A hA
    by_cases hq : QU ≠ []
    · right
      rw [hqpdef, if_pos hq]
      exact splitFirst_append _ hA
    · left
      rw [hqpdef, if_neg hq, List.append_nil]
      exact ⟨splitFirst_eq_none.mpr hA, rfl, not_not.mp hq⟩
  -- generic reparse of a `//`-headed core
  have hsplitSlash : ∀ (NL2 A : List Char),
      (∀ x ∈ NL2, notNetlocDelim x = true) → bracketBad NL2 = false →
      '#' ∉ A → '?' ∉ A → (A = [] ∨ A.take 1 = ['/']) →
      pyUrlsplit ((if SCH ≠ [] then
          SCH ++ ':' :: ('/' :: '/' :: (NL2 ++ A))
        else '/' :: '/' :: (NL2 ++ A)) ++ qp) =
        .ok ⟨SCH, NL2, A, QU, []⟩ := by
    intro NL2 A hnd2 hbr2 hAh hAq hAshape
    obtain ⟨htw, hdw⟩ := takeWhile_append_all hnd2 (delim_head hAshape hqp)
    have hr2h : '#' ∉ A ++ qp := by
      intro hc
      rcases List.mem_append.mp hc with hc | hc
      · exact hAh hc
      · exact hqph hc
    by_cases hS : SCH ≠ []
    · rw [if_pos hS]
      have hXform : (SCH ++ ':' :: ('/' :: '/' :: (NL2 ++ A))) ++ qp =
          SCH ++ ':' :: ('/' :: '/' :: (NL2 ++ (A ++ qp))) := by
        simp [List.append_assoc]
      rw [hXform]
      exact pyUrlsplit_eval
        (Or.inr (takeScheme_recover hall (halpha.resolve_left hS) hlow))
        (Or.inl ⟨rfl, htw.symm, hdw.symm⟩) hbr2 hr2h (hqsplit A hAq)
    · rw [if_neg hS]
      have hXform : ('/' :: '/' :: (NL2 ++ A)) ++ qp =
          '/' :: '/' :: (NL2 ++ (A ++ qp)) := by
        simp [List.append_assoc]
      rw [hXform]
      exact pyUrlsplit_eval
        (Or.inl ⟨takeScheme_none_head (by decide), not_not.mp hS, rfl⟩)
        (Or.inl ⟨rfl, htw.symm, hdw.symm⟩) hbr2 hr2h (hqsplit A hAq)
  by_cases hNL : NL ≠ []
  · -- netloc present
    have hshape' : rejoinParams PTH PAR = [] ∨
        (rejoinParams PTH PAR).take 1 = ['/'] := hshape hNL
    have hnoprep : ¬(rejoinParams PTH PAR ≠ [] ∧
        (rejoinParams PTH PAR).take 1 ≠ ['/']) := by
      rcases hshape' with h | h
      · exact fun hc => hc.1 h
      · exact fun hc => hc.2 h
    have hXeq : pyUrlunparse ⟨SCH, NL, PTH, PAR, QU, []⟩ =
        (if SCH ≠ [] then
            SCH ++ ':' :: ('/' :: '/' :: (NL ++ rejoinParams PTH PAR))
          else '/' :: '/' :: (NL ++ rejoinParams PTH PAR)) ++ qp := by
      unfold pyUrlunparse pyUrlunsplit
      dsimp only
      rw [if_pos (Or.inl hNL), if_neg hnoprep,
        if_neg (show ¬(([] : List Char) ≠ []) by simp), hqapp]
      congr 1
    refine ⟨⟨SCH, NL, PTH, PAR, QU, []⟩, ?_, rfl,
      normalizeTransform_fix rfl hqf⟩
    rw [hXeq]
    have hsp := hsplitSlash NL (rejoinParams PTH PAR) hnd hbr hp1h hp1q hshape'
    have h2 := pyUrlparse_eval hsp
    dsimp only at h2
    rw [hpp] at h2
    exact h2
  · have hNLe : NL = [] := not_not.mp hNL
    subst hNLe
    have hp1take2 : (rejoinParams PTH PAR).take 2 ≠ ['/', '/'] := by
      rcases hmain with h | h
      · exact absurd rfl h
      · exact h
    by_cases hB : SCH ≠ [] ∧ SCH ∈ USES_NETLOC
    · -- scheme uses a netloc: `//` is emitted
      have hBcond : ([] : List Char) ≠ [] ∨ (SCH ≠ [] ∧ SCH ∈ USES_NETLOC ∧
          (rejoinParams PTH PAR).take 2 ≠ ['/', '/']) :=
        Or.inr ⟨hB.1, hB.2, hp1take2⟩
      by_cases hpre : rejoinParams PTH PAR ≠ [] ∧
          (rejoinParams PTH PAR).take 1 ≠ ['/']
      · -- a '/' is prepended to the path
        have hXeq : pyUrlunparse ⟨SCH, [], PTH, PAR, QU, []⟩ =
            (if SCH ≠ [] then
                SCH ++ ':' :: ('/' :: '/' :: (([] : List Char) ++
                  ('/' :: rejoinParams PTH PAR)))
              else '/' :: '/' :: (([] : List Char) ++
                ('/' :: rejoinParams PTH PAR))) ++ qp := by
          unfold pyUrlunparse pyUrlunsplit
          dsimp only
          rw [if_pos hBcond, if_pos hpre,
            if_neg (show ¬(([] : List Char) ≠ []) by simp), hqapp]
          congr 1
        have hsp := hsplitSlash [] ('/' :: rejoinParams PTH PAR)
          (by simp) (by decide)
          (by
            intro hc
            rcases List.mem_cons.mp hc with hc | hc
            · cases hc
            · exact hp1h hc)
          (by
            intro hc
            rcases List.mem_cons.mp hc with hc | hc
            · cases hc
            · exact hp1q hc)
          (Or.inr rfl)
        have h2 := pyUrlparse_eval hsp
        dsimp only at h2
        rw [pathParams_cons_slash, hpp] at h2
        dsimp only at h2
        refine ⟨⟨SCH, [], '/' :: PTH, PAR, QU, []⟩, ?_, ?_, ?_⟩
        · rw [hXeq]
          exact h2
        · -- the re-unparse emits the same string
          have hrej : rejoinParams ('/' :: PTH) PAR =
              '/' :: rejoinParams PTH PAR := rejoin_cons_slash PTH PAR
          have hBcond' : ([] : List Char) ≠ [] ∨
              (SCH ≠ [] ∧ SCH ∈ USES_NETLOC ∧
                (rejoinParams ('/' :: PTH) PAR).take 2 ≠ ['/', '/']) := by
            refine Or.inr ⟨hB.1, hB.2, ?_⟩
            rw [hrej]
            intro hc
            have : (rejoinParams PTH PAR).take 1 = ['/'] := by
              have h5 : '/' :: (rejoinParams PTH PAR).take 1 = ['/', '/'] := hc
              injection h5 with _ h6
            exact hpre.2 this
          have hnoprep' : ¬(rejoinParams ('/' :: PTH) PAR ≠ [] ∧
              (rejoinParams ('/' :: PTH) PAR).take 1 ≠ ['/']) := by
            rw [hrej]
            exact fun hc => hc.2 rfl
          have hXeq' : pyUrlunparse ⟨SCH, [], '/' :: PTH, PAR, QU, []⟩ =
              (if SCH ≠ [] then
                  SCH ++ ':' :: ('/' :: '/' :: (([] : List Char) ++
                    rejoinParams ('/' :: PTH) PAR))
                else '/' :: '/' :: (([] : List Char) ++
                  rejoinParams ('/' :: PTH) PAR)) ++ qp := by
            unfold pyUrlunparse pyUrlunsplit
            dsimp only
            rw [if_pos hBcond', if_neg hnoprep',
              if_neg (show ¬(([] : List Char) ≠ []) by simp), hqapp]
            congr 1
          rw [hXeq', hXeq, hrej]
        · exact normalizeTransform_fix rfl hqf
      · -- path already absolute (or empty): nothing is prepended
        have hshape' : rejoinParams PTH PAR = [] ∨
            (rejoinParams PTH PAR).take 1 = ['/'] := by
          by_cases hne : rejoinParams PTH PAR = []
          · exact Or.inl hne
          · right
            by_contra htk
            exact hpre ⟨hne, htk⟩
        have hXeq : pyUrlunparse ⟨SCH, [], PTH, PAR, QU, []⟩ =
            (if SCH ≠ [] then
                SCH ++ ':' :: ('/' :: '/' :: (([] : List Char) ++
                  rejoinParams PTH PAR))
              else '/' :: '/' :: (([] : List Char) ++
                rejoinParams PTH PAR)) ++ qp := by
          unfold pyUrlunparse pyUrlunsplit
          dsimp only
          rw [if_pos hBcond, if_neg hpre,
            if_neg (show ¬(([] : List Char) ≠ []) by simp), hqapp]
          congr 1
        refine ⟨⟨SCH, [], PTH, PAR, QU, []⟩, ?_, rfl,
          normalizeTransform_fix rfl hqf⟩
        rw [hXeq]
        have hsp := hsplitSlash [] (rejoinParams PTH PAR)
          (by simp) (by decide) hp1h hp1q hshape'
        have h2 := pyUrlparse_eval hsp
        dsimp only at h2
        rw [hpp] at h2
        exact h2
    · -- no netloc and the scheme does not use one: the path is emitted bare
      have hBcond : ¬(([] : List Char) ≠ [] ∨
          (SCH ≠ [] ∧ SCH ∈ USES_NETLOC ∧
            (rejoinParams PTH PAR).take 2 ≠ ['/', '/'])) := by
        rintro (hc | ⟨h1, h2, _⟩)
        · exact hc rfl
        · exact hB ⟨h1, h2⟩
      have hXeq : pyUrlunparse ⟨SCH, [], PTH, PAR, QU, []⟩ =
          (if SCH ≠ [] then SCH ++ ':' :: rejoinParams PTH PAR
            else rejoinParams PTH PAR) ++ qp := by
        unfold pyUrlunparse pyUrlunsplit
        dsimp only
        rw [if_neg hBcond,
          if_neg (show ¬(([] : List Char) ≠ []) by simp), hqapp]
      have hr2h : '#' ∉ rejoinParams PTH PAR ++ qp := by
        intro hc
        rcases List.mem_append.mp hc with hc | hc
        · exact hp1h hc
        · exact hqph hc
      have htk2 : (rejoinParams PTH PAR ++ qp).take 2 ≠ ['/', '/'] :=
        take2_append_ne hp1take2 hqp
      refine ⟨⟨SCH, [], PTH, PAR, QU, []⟩, ?_, rfl,
        normalizeTransform_fix rfl hqf⟩
      rw [hXeq]
      have hsp : pyUrlsplit ((if SCH ≠ [] then
          SCH ++ ':' :: rejoinParams PTH PAR
          else rejoinParams PTH PAR) ++ qp) =
          .ok ⟨SCH, [], rejoinParams PTH PAR, QU, []⟩ := by
        by_cases hS : SCH ≠ []
        · rw [if_pos hS]
          have hXform : (SCH ++ ':' :: rejoinParams PTH PAR) ++ qp =
              SCH ++ ':' :: (rejoinParams PTH PAR ++ qp) := by
            simp [List.append_assoc]
          rw [hXform]
          exact pyUrlsplit_eval
            (Or.inr (takeScheme_recover hall (halpha.resolve_left hS) hlow))
            (Or.inr ⟨htk2, rfl, rfl⟩) (by decide) hr2h
            (hqsplit (rejoinParams PTH PAR) hp1q)
        · rw [if_neg hS]
          exact pyUrlsplit_eval
            (Or.inl ⟨takeScheme_eq_none_of
              (hnofake (not_not.mp hS) rfl) hqp, not_not.mp hS, rfl⟩)
            (Or.inr ⟨htk2, rfl, rfl⟩) (by decide) hr2h
            (hqsplit (rejoinParams PTH PAR) hp1q)
      have h2 := pyUrlparse_eval hsp
      dsimp only at h2
      rw [hpp] at h2
      exact h2


/-! ### C5: idempotence of `normalize_url` -/

theorem filterQuery_nil : filterQuery ([] : List Char) = [] := by decide

/-- `normalizeTransform` written out: the fragment is dropped and the
query is filtered (the `if p.query:` guard is immaterial because
`filterQuery [] = []`). -/
theorem normalizeTransform_eq (p : ParseResult) :
    normalizeTransform p =
      ⟨p.scheme, p.netloc, p.path, p.params, filterQuery p.query, []⟩ := by
  obtain ⟨s, n, pa, par, qu, fr⟩ := p
  unfold normalizeTransform
  dsimp only
  by_cases hq : qu ≠ []
  · rw [if_pos hq]
  · rw [if_neg hq]
    have hqe : qu = [] := not_not.mp hq
    subst hqe
    rw [filterQuery_nil]

/-- The one shape CPython 3.11's `urlunsplit` cannot reproduce: an empty
netloc with a re-joined path that starts with `//`.  Everywhere else the
normalized output reparses to itself. -/
def normalizeStableB (u : List Char) : Bool :=
  match pyUrlparse u with
  | .error _ => true
  | .ok p => !p.netloc.isEmpty ||
      !((rejoinParams p.path p.params).take 2 == ['/', '/'])

theorem normalizeUrlL_ok {u : List Char} {p : ParseResult}
    (h : pyUrlparse u = .ok p) :
    normalizeUrlL u = pyUrlunparse (normalizeTransform p) := by
  unfold normalizeUrlL
  rw [h]

theorem normalizeUrlL_err {u : List Char} {e : Unit}
    (h : pyUrlparse u = .error e) : normalizeUrlL u = u := by
  unfold normalizeUrlL
  rw [h]

theorem normalizeUrlL_amended (u : List Char) :
    (∀ p, pyUrlparse u = .ok p →
        normalizeUrlL u = pyUrlunparse
          ⟨p.scheme, p.netloc, p.path, p.params, filterQuery p.query, []⟩) ∧
    (normalizeStableB u = true →
      normalizeUrlL (normalizeUrlL u) = normalizeUrlL u) := by
  constructor
  · intro p hp
    rw [normalizeUrlL_ok hp, normalizeTransform_eq]
  · intro hstable
    cases hparse : pyUrlparse u with
    | error e =>
      rw [normalizeUrlL_err hparse, normalizeUrlL_err hparse]
    | ok p =>
      have h1 : normalizeUrlL u = pyUrlunparse (normalizeTransform p) :=
        normalizeUrlL_ok hparse
      have hmain : (normalizeTransform p).netloc ≠ [] ∨
          (rejoinParams (normalizeTransform p).path
            (normalizeTransform p).params).take 2 ≠ ['/', '/'] := by
        rw [normalizeTransform_eq]
        unfold normalizeStableB at hstable
        rw [hparse] at hstable
        dsimp only at hstable
        rcases Bool.or_eq_true _ _ |>.mp hstable with h | h
        · left
          intro hc
          rw [hc] at h
          cases h
        · right
          intro hc
          rw [hc] at h
          simp at h
      obtain ⟨q', hparse', hunparse', hfix'⟩ :=
        unparse_reparse (urlInv_transform (pyUrlparse_ok_inv hparse))
          (normalizeTransform_frag p) (normalizeTransform_qfix p) hmain
      rw [h1, normalizeUrlL_ok hparse', hfix', hunparse']

/-- C5 (amended): unconditional idempotence of `normalize_url` fails
(see the counterexample).  On every parseable URL, normalization drops
the fragment and exactly the query chunks with a tracking key, keeping
the other chunks verbatim and in order; and it is idempotent on every
URL whose parse fails or yields a result outside the lossy corner of
`urlunsplit` (empty netloc with a path starting `//`). -/
theorem C5_normalize_amended (u : String) :
    (∀ p, pyUrlparse u.data = .ok p →
        normalize_url u = String.mk (pyUrlunparse
          ⟨p.scheme, p.netloc, p.path, p.params, filterQuery p.query, []⟩)) ∧
    (normalizeStableB u.data = true →
      normalize_url (normalize_url u) = normalize_url u) := by
  obtain ⟨hq, hid⟩ := normalizeUrlL_amended u.data
  refine ⟨fun p hp => congrArg String.mk (hq p hp), fun hstable => ?_⟩
  show String.mk (normalizeUrlL (normalizeUrlL u.data)) = String.mk (normalizeUrlL u.data)
  rw [hid hstable]

/-- C5: the original claim's unconditional idempotence is false — the
code (via CPython 3.11 `urlunparse`) maps `http://////x` to
`http:////x`, and that again to `http://x`. -/
theorem C5_normalize_counterexample :
    normalize_url (normalize_url "http://////x") ≠
      normalize_url "http://////x" := by decide

/-- C5 witness: the amended theorem applied at a concrete URL with a
fragment and a mixed query (both conjuncts), and its query/fragment
conjunct applied in the lossy corner itself. -/
theorem C5_normalize_amended_witness :
    normalizeStableB (String.data "https://h/p?utm_source=x&id=7#f") = true ∧
    normalize_url "https://h/p?utm_source=x&id=7#f" = "https://h/p?id=7" ∧
    normalize_url (normalize_url "https://h/p?utm_source=x&id=7#f") =
      normalize_url "https://h/p?utm_source=x&id=7#f" ∧
    normalize_url "http://////x" = "http:////x" :=
  ⟨by decide,
    ((C5_normalize_amended "https://h/p?utm_source=x&id=7#f").1
      ⟨String.data "https", String.data "h", String.data "/p",
        [], String.data "utm_source=x&id=7", String.data "f"⟩
      (by rfl)).trans (by rfl),
    (C5_normalize_amended "https://h/p?utm_source=x&id=7#f").2 (by decide),
    ((C5_normalize_amended "http://////x").1
      ⟨String.data "http", [], String.data "////x", [], [], []⟩
      (by rfl)).trans (by rfl)⟩


/-! ## `urllib.parse.urljoin` (CPython 3.11) -/

/-- The segment loop of `urljoin`: `..` pops (ignoring an empty stack),
`.` is dropped, everything else is appended. -/
def resolveSegments (acc : List (List Char)) : List (List Char) → List (List Char)
  | [] => acc
  | seg :: rest =>
    if seg = ['.', '.'] then resolveSegments acc.dropLast rest
    else if seg = ['.'] then resolveSegments acc rest
    else resolveSegments (acc ++ [seg]) rest

/-- `segments[1:-1] = filter(None, segments[1:-1])`: drop empty strings
strictly between the first and the last element. -/
def filterMiddleAux : List (List Char) → List (List Char)
  | [] => []
  | [lastSeg] => [lastSeg]
  | s :: rest => if s = [] then filterMiddleAux rest else s :: filterMiddleAux rest

def filterMiddle : List (List Char) → List (List Char)
  | [] => []
  | a :: rest => a :: filterMiddleAux rest

/-- Model of `urllib.parse.urljoin(base, url)` (CPython 3.11), with the
`ValueError` of the inner `urlparse` calls surfaced as `Except.error`. -/
def pyUrljoin (base url : List Char) : Except Unit (List Char) :=
  if base = [] then .ok url
  else if url = [] then .ok base
  else
    match pyUrlparseD [] base with
    | .error e => .error e
    | .ok b =>
      match pyUrlparseD b.scheme url with
      | .error e => .error e
      | .ok u =>
        if u.scheme ≠ b.scheme ∨ u.scheme ∉ USES_RELATIVE then .ok url
        else if u.scheme ∈ USES_NETLOC ∧ u.netloc ≠ [] then
          .ok (pyUrlunparse u)
        else
          let netloc := if u.scheme ∈ USES_NETLOC then b.netloc else u.netloc
          if u.path = [] ∧ u.params = [] then
            .ok (pyUrlunparse ⟨u.scheme, netloc, b.path, b.params,
              (if u.query = [] then b.query else u.query), u.fragment⟩)
          else
            let base_parts := splitAll '/' b.path
            let base_parts :=
              if base_parts.getLast? = some [] then base_parts
              else base_parts.dropLast
            let segments :=
              if u.path.take 1 = ['/'] then splitAll '/' u.path
              else filterMiddle (base_parts ++ splitAll '/' u.path)
            let resolved := resolveSegments [] segments
            let resolved :=
              if segments.getLast? = some ['.'] ∨
                  segments.getLast? = some ['.', '.'] then
                resolved ++ [[]]
              else resolved
            let newPath := joinAll '/' resolved
            let newPath := if newPath = [] then ['/'] else newPath
            .ok (pyUrlunparse ⟨u.scheme, netloc, newPath, u.params,
              u.query, u.fragment⟩)

/-- String-level `urljoin`. -/
def urljoin (base url : String) : Except Unit String :=
  (pyUrljoin base.data url.data).map String.mk

example : urljoin "https://example.com/home" "/news/story" =
    .ok "https://example.com/news/story" := by rfl
example : urljoin "https://example.com/a/b/c" "d/e" =
    .ok "https://example.com/a/b/d/e" := by rfl
example : urljoin "https://example.com/a/b/" "../x" =
    .ok "https://example.com/a/x" := by rfl
example : urljoin "https://example.com/a/b/" "./" =
    .ok "https://example.com/a/b/" := by rfl
example : urljoin "https://example.com/a/b" "//other.org/p" =
    .ok "https://other.org/p" := by rfl
example : urljoin "https://example.com/a" "http://h2/q?x=1#f" =
    .ok "http://h2/q?x=1#f" := by rfl
example : urljoin "https://example.com/a" "mailto:joe@x.org" =
    .ok "mailto:joe@x.org" := by rfl
example : urljoin "http://h/a/b" "" = .ok "http://h/a/b" := by rfl
example : urljoin "" "rel/x" = .ok "rel/x" := by rfl
example : urljoin "http://h/a/b?q=1" "?z=2" = .ok "http://h/a/b?z=2" := by rfl
example : urljoin "http://h/a/b" "#frag" = .ok "http://h/a/b#frag" := by rfl
example : urljoin "http://h/a/./b/" "../../up" = .ok "http://h/up" := by rfl
example : urljoin "http://h" "x" = .ok "http://h/x" := by rfl
example : urljoin "http://h/a;p=1" "b" = .ok "http://h/b" := by rfl
example : urljoin "http://h/deep/" "..//x" = .ok "http://h/x" := by rfl
example : urljoin "http://h" "http://[::1/x" = .error () := by rfl


/-! ## The DOM model

A parsed page is a tree of element and text nodes (the BeautifulSoup
`Tag`/`NavigableString` view used by `extract_candidates`).  An anchor
is presented together with the chain of its ancestors' tag names,
nearest parent first (walking `parent` references to the root). -/

inductive Node where
  | elem (name : String) (attrs : List (String × String)) (children : List Node)
  | text (s : String)

/-- An `<a>` element as met during a selector pass: its attributes, its
children and its ancestor tag names (nearest first). -/
structure AnchorCtx where
  attrs : List (String × String)
  children : List Node
  ancestors : List String

/-- `Tag.get`: look an attribute up by name. -/
def lookupAttr (attrs : List (String × String)) (k : String) : Option String :=
  match attrs with
  | [] => none
  | (k1, v) :: rest => if k1 = k then some v else lookupAttr rest k

mutual

/-- All descendant text fragments of a node, in document order
(BeautifulSoup `Tag.strings`). -/
def nodeTexts : Node → List (List Char)
  | .text s => [s.data]
  | .elem _ _ ch => nodesTexts ch

def nodesTexts : List Node → List (List Char)
  | [] => []
  | n :: rest => nodeTexts n ++ nodesTexts rest

end

/-- Python whitespace as relevant here: `str.strip()` and `re` ASCII
`\\s` both cover space, tab, newline, carriage return, vertical tab and
form feed. -/
def isPyWs (c : Char) : Bool :=
  c = ' ' || c = '\t' || c = '\n' || c = '\r' ||
    c = Char.ofNat 11 || c = Char.ofNat 12

/-- `str.strip()`. -/
def pyStrip (l : List Char) : List Char :=
  ((l.dropWhile isPyWs).reverse.dropWhile isPyWs).reverse

/-- `a.get_text(" ", strip=True)`: every descendant string stripped,
those that strip to nothing dropped, the rest joined with one space. -/
def getTextStrip (ch : List Node) : List Char :=
  joinAll ' ' (((nodesTexts ch).map pyStrip).filter (fun s => s ≠ []))

/-- `anchor_text` (scrape_homepages.py lines 93-94). -/
def anchor_text (a : AnchorCtx) : List Char := getTextStrip a.children

/-- `re.sub(r"\\s+", " ", text)`: collapse every maximal whitespace run
to a single space.  The flag records whether the previous character was
part of a run. -/
def collapseGo : Bool → List Char → List Char
  | _, [] => []
  | inWs, c :: rest =>
    if isPyWs c then
      if inWs then collapseGo true rest else ' ' :: collapseGo true rest
    else c :: collapseGo false rest

def collapseWs (l : List Char) : List Char := collapseGo false l

/-- `text_norm = re.sub(r"\\s+", " ", text).strip()` (line 183). -/
def text_norm_of (text : List Char) : List Char := pyStrip (collapseWs text)

def lowerStr (l : List Char) : List Char := l.map Char.toLower

/-- The alternatives of `JUNK_TEXT_PATTERNS` (lines 19-23), lowercase. -/
def JUNK_PHRASES : List (List Char) :=
  (["read more", "more", "listen", "watch", "subscribe", "sign in",
    "log in", "register", "privacy", "cookies", "cookie policy",
    "terms", "contact", "about", "help", "advert",
    "advertisement"].map String.data)

/-- `JUNK_TEXT_RE.search(s)`: every alternative of the compiled pattern
is anchored `^...$` and the pattern is compiled without MULTILINE, so
under `re.search` it matches iff `s` is exactly one of the phrases or a
phrase followed by one final newline (`$` also matches just before a
trailing newline).  IGNORECASE is accounted for by applying the search
to lowercased text, as the code does (line 186), against the lowercase
phrases. -/
def junkSearch (s : List Char) : Bool :=
  JUNK_PHRASES.any (fun p => s = p || s = p ++ ['\n'])

/-! ## Ancestor classification and scoring -/

def BAD_ANCESTOR_TAGS : List String := ["nav", "footer", "header", "aside"]

def GOOD_ANCESTOR_TAGS : List String := ["main", "article"]

/-- `has_bad_ancestor` (lines 97-103): the walk starts at the element
itself (`cur = a`), whose tag name is `a`. -/
def has_bad_ancestor (a : AnchorCtx) : Bool :=
  ("a" :: a.ancestors).any (fun n => BAD_ANCESTOR_TAGS.contains n)

/-- `has_good_ancestor` (lines 106-112). -/
def has_good_ancestor (a : AnchorCtx) : Bool :=
  ("a" :: a.ancestors).any (fun n => GOOD_ANCESTOR_TAGS.contains n)

/-- `{"h1", "h2", "h3"} & parent_names` (lines 131-132): `a.parents`
excludes the element itself. -/
def headingParent (a : AnchorCtx) : Bool :=
  a.ancestors.any (fun n => n = "h1" || n = "h2" || n = "h3")

/-- Does `/\\d{4}/\\d{2}/\\d{2}/` match at the head of the list? -/
def dateHead (l : List Char) : Bool :=
  match l with
  | c0 :: c1 :: c2 :: c3 :: c4 :: c5 :: c6 :: c7 :: c8 :: c9 :: c10 :: c11 :: _ =>
    c0 = '/' && c1.isDigit && c2.isDigit && c3.isDigit && c4.isDigit &&
      c5 = '/' && c6.isDigit && c7.isDigit && c8 = '/' && c9.isDigit &&
      c10.isDigit && c11 = '/'
  | _ => false

/-- `re.search(r"/\\d{4}/\\d{2}/\\d{2}/", path)`: a match at any
position. -/
def hasDateSeg : List Char → Bool
  | [] => false
  | c :: rest => dateHead (c :: rest) || hasDateSeg rest

/-- `is_probably_article_url` (lines 80-90).  The inner `urlparse` runs
outside any `try`, so its `ValueError` propagates. -/
def is_probably_article_url (url : List Char) : Except Unit Bool :=
  match pyUrlparse url with
  | .error e => .error e
  | .ok p =>
    .ok (hasDateSeg p.path ||
      (decide (25 < p.path.length) && decide (2 ≤ p.path.count '/')))

/-- `score_anchor` (lines 115-144).  All deltas are integral, so the
Python float is modelled exactly by `Int`. -/
def score_anchor (a : AnchorCtx) (text url : List Char) : Except Unit Int :=
  let ln := text.length
  let score : Int := 0
  let score := if 25 ≤ ln ∧ ln ≤ 140 then score + 3
    else if 15 ≤ ln ∧ ln < 25 then score + 1
    else if 140 < ln then score - 1
    else score
  let score := if headingParent a then score + 4 else score
  let score := if has_good_ancestor a then score + 2 else score
  let score := if has_bad_ancestor a then score - 4 else score
  match is_probably_article_url url with
  | .error e => .error e
  | .ok art => .ok (if art then score + 1 else score)

example :
    anchor_text ⟨[("href", "/x")],
      [.elem "span" [] [.text "  Hello \n world "], .text "  ", .text "again"],
      []⟩ = "Hello \n world again".data := by rfl
example : text_norm_of "  Hello \n world again".data = "Hello world again".data := by
  rfl
example : junkSearch "advertisement".data = true := by rfl
example : junkSearch "cookie policy".data = true := by rfl
example : junkSearch "privacy concerns grow in europe".data = false := by rfl
example : is_probably_article_url "https://h/2024/01/02/story".data =
    .ok true := by rfl
example : is_probably_article_url "https://h/a".data = .ok false := by rfl
example : is_probably_article_url "http://[::1/x".data = .error () := by rfl


/-! ## URL filters -/

/-- An abstract compiled regular expression: `matchAt s` tells whether
the pattern matches some prefix of the suffix `s`. -/
structure RePattern where
  matchAt : List Char → Bool

/-- `pattern.search(s)`: unanchored — try every start position. -/
def reSearch (p : RePattern) (s : List Char) : Bool :=
  (List.range (s.length + 1)).any (fun i => p.matchAt (s.drop i))

/-- `passes_url_filters` (lines 147-152). -/
def passes_url_filters (url : List Char)
    (allow_re deny_re : Option RePattern) : Bool :=
  if (match deny_re with
      | some d => reSearch d url
      | none => false) then false
  else if (match allow_re with
      | some a => !reSearch a url
      | none => false) then false
  else true

/-! ## The selector loop of `extract_candidates` -/

structure Cand where
  title : List Char
  url : List Char
deriving Repr, DecidableEq

structure ExtractState where
  seen : List (List Char)
  scored : List (Int × Cand)
deriving Repr, DecidableEq

/-- The sha1 dedupe key (line 199).  Hex digests of distinct preimages
are treated as distinct, so the key is modelled by its preimage
`abs_url + "||" + text_norm.lower()`. -/
def fingerprint (abs_url text_norm : List Char) : List Char :=
  abs_url ++ '|' :: '|' :: lowerStr text_norm

/-- `abs_url.startswith(("http://", "https://"))` (line 192). -/
def isHttpS (l : List Char) : Bool :=
  l.take 7 = "http://".data || l.take 8 = "https://".data

/-- The per-anchor body of the selector loop (lines 173-205).  The
`urljoin` call (line 189) and the `urlparse` inside `score_anchor` run
outside any `try`, so their errors propagate. -/
def processAnchor (base_url : List Char)
    (allow_re deny_re : Option RePattern) (st : ExtractState)
    (a : AnchorCtx) : Except Unit ExtractState :=
  match lookupAttr a.attrs "href" with
  | none => .ok st
  | some href =>
    if href.data = [] then .ok st
    else
      let text := anchor_text a
      if text = [] then .ok st
      else
        let text_norm := text_norm_of text
        if text_norm.length < 12 then .ok st
        else if junkSearch (lowerStr text_norm) then .ok st
        else
          match pyUrljoin base_url href.data with
          | .error e => .error e
          | .ok joined =>
            let abs_url := normalizeUrlL joined
            if !isHttpS abs_url then .ok st
            else if !passes_url_filters abs_url allow_re deny_re then .ok st
            else
              let key := fingerprint abs_url text_norm
              if key ∈ st.seen then .ok st
              else
                match score_anchor a text_norm abs_url with
                | .error e => .error e
                | .ok s =>
                  .ok ⟨key :: st.seen,
                    st.scored ++ [(s, ⟨text_norm, abs_url⟩)]⟩

def processAnchorList (base_url : List Char)
    (allow_re deny_re : Option RePattern) :
    ExtractState → List AnchorCtx → Except Unit ExtractState
  | st, [] => .ok st
  | st, a :: rest =>
    match processAnchor base_url allow_re deny_re st a with
    | .error e => .error e
    | .ok st2 => processAnchorList base_url allow_re deny_re st2 rest

mutual

/-- The anchors of a subtree in document order, each paired with the
tag names above it (nearest parent first). -/
def anchorsOf (anc : List String) : Node → List AnchorCtx
  | .text _ => []
  | .elem nm attrs ch =>
    (if nm = "a" ∧ (lookupAttr attrs "href").isSome then
      [⟨attrs, ch, anc⟩] else []) ++ anchorsList (nm :: anc) ch

def anchorsList : List String → List Node → List AnchorCtx
  | _, [] => []
  | anc, n :: rest => anchorsOf anc n ++ anchorsList anc rest

end

def docAnchors (doc : List Node) : List AnchorCtx := anchorsList [] doc

/-- `soup.select(sel)` for the four selector strings the source uses:
`t a[href]` keeps the anchors with an ancestor of tag `t`, in document
order. -/
def selectQ (doc : List Node) (sel : String) : List AnchorCtx :=
  if sel = "h1 a[href], h2 a[href], h3 a[href]" then
    (docAnchors doc).filter (fun a =>
      a.ancestors.any (fun n => n = "h1" || n = "h2" || n = "h3"))
  else if sel = "article a[href]" then
    (docAnchors doc).filter (fun a => a.ancestors.contains "article")
  else if sel = "main a[href]" then
    (docAnchors doc).filter (fun a => a.ancestors.contains "main")
  else if sel = "a[href]" then docAnchors doc
  else []

/-- The selector list (lines 162-167). -/
def selectors : List String :=
  ["h1 a[href], h2 a[href], h3 a[href]", "article a[href]",
    "main a[href]", "a[href]"]

/-- The selector loop with its early break (lines 172-209). -/
def runPasses (doc : List Node) (base_url : List Char)
    (allow_re deny_re : Option RePattern) (max_items : Nat) :
    List String → ExtractState → Except Unit ExtractState
  | [], st => .ok st
  | sel :: rest, st =>
    match processAnchorList base_url allow_re deny_re st (selectQ doc sel) with
    | .error e => .error e
    | .ok st2 =>
      if max_items * 2 ≤ st2.scored.length ∧ sel ≠ "a[href]" then .ok st2
      else runPasses doc base_url allow_re deny_re max_items rest st2

/-! ## Deduping, ranking, output (lines 211-231) -/

/-- One step of the `by_url` dict pass (lines 216-222): a Python dict
preserves insertion order and an update in place keeps the position;
the stored entry is replaced only on a strictly greater score. -/
def byUrlUpd : List (Int × Cand) → Int → Cand → List (Int × Cand)
  | [], s, c => [(s, c)]
  | (s0, c0) :: rest, s, c =>
    if c0.url = c.url then
      (if s0 < s then (s, c) else (s0, c0)) :: rest
    else (s0, c0) :: byUrlUpd rest s c

def dedupeGo : List (Int × Cand) → List (Int × Cand) → List (Int × Cand)
  | m, [] => m
  | m, (s, c) :: rest => dedupeGo (byUrlUpd m s c) rest

def dedupeByUrl (l : List (Int × Cand)) : List (Int × Cand) := dedupeGo [] l

/-- `sort(key=lambda t: t[0], reverse=True)`: stable descending sort by
score, which `List.mergeSort` with a non-strict comparison models. -/
def sortScoredDesc (l : List (Int × Cand)) : List (Int × Cand) :=
  l.mergeSort (fun x y => decide (y.1 ≤ x.1))

/-- Lines 211-231: sort, dedupe by URL, sort, truncate, drop the
score. -/
def finalizeCandidates (scored : List (Int × Cand)) (max_items : Nat) :
    List Cand :=
  let items := sortScoredDesc (dedupeByUrl (sortScoredDesc scored))
  (items.take max_items).map (fun e => e.2)

/-- `extract_candidates` (lines 155-231) over a parsed document. -/
def extract_candidates (doc : List Node) (base_url : List Char)
    (allow_re deny_re : Option RePattern) (max_items : Nat) :
    Except Unit (List Cand) :=
  match runPasses doc base_url allow_re deny_re max_items selectors ⟨[], []⟩ with
  | .error e => .error e
  | .ok st => .ok (finalizeCandidates st.scored max_items)

/-! ## The cross-source merge (main, lines 302-311) -/

/-- One output row: the fields other than `url` that `main` carries
along (title, source name, category, timestamp) are summarised by
`title` and the source index `source`. -/
structure Row where
  title : List Char
  url : List Char
  source : Nat
deriving Repr, DecidableEq

def mergeGo : List (List Char) → List Row → List Row → List Row
  | _, acc, [] => acc
  | seenUrls, acc, r :: rest =>
    let u := normalizeUrlL r.url
    if u ∈ seenUrls then mergeGo seenUrls acc rest
    else mergeGo (u :: seenUrls) (acc ++ [{ r with url := u }]) rest

/-- The global dedupe by normalized URL over the concatenated
per-source rows. -/
def merge_rows (rows : List Row) : List Row := mergeGo [] [] rows


/-! ## C4: score decomposition and the length boundaries -/

/-- The sequential `score += ...` updates of `score_anchor` written as
one sum of independent deltas. -/
theorem score_anchor_eq (a : AnchorCtx) (text url : List Char) (art : Bool)
    (h : is_probably_article_url url = .ok art) :
    score_anchor a text url = .ok (
      (if 25 ≤ text.length ∧ text.length ≤ 140 then (3 : Int)
        else if 15 ≤ text.length ∧ text.length < 25 then 1
        else if 140 < text.length then -1 else 0) +
      (if headingParent a then 4 else 0) +
      (if has_good_ancestor a then 2 else 0) +
      (if has_bad_ancestor a then -4 else 0) +
      (if art then 1 else 0)) := by
  unfold score_anchor
  rw [h]
  dsimp only
  simp only [Except.ok.injEq]
  split_ifs <;> ring

/-- C4: the length component of the score has inclusive boundaries
(24 chars: +1; 25: +3; 140: +3; 141: -1), and in general the score is
the sum of the length delta (+3 for 25-140, +1 for 15-24, -1 above
140), +4 for an h1-h3 parent, +2 for a good ancestor, -4 for a bad
ancestor and +1 for an article-shaped URL, starting from 0. -/
theorem C4_score_boundaries (a : AnchorCtx) (text url : List Char) (art : Bool)
    (h : is_probably_article_url url = .ok art) :
    score_anchor a text url = .ok (
      (if 25 ≤ text.length ∧ text.length ≤ 140 then (3 : Int)
        else if 15 ≤ text.length ∧ text.length < 25 then 1
        else if 140 < text.length then -1 else 0) +
      (if headingParent a then 4 else 0) +
      (if has_good_ancestor a then 2 else 0) +
      (if has_bad_ancestor a then -4 else 0) +
      (if art then 1 else 0)) ∧
    (text.length = 24 → score_anchor a text url = .ok ((1 : Int) +
      (if headingParent a then 4 else 0) +
      (if has_good_ancestor a then 2 else 0) +
      (if has_bad_ancestor a then -4 else 0) +
      (if art then 1 else 0))) ∧
    (text.length = 25 → score_anchor a text url = .ok ((3 : Int) +
      (if headingParent a then 4 else 0) +
      (if has_good_ancestor a then 2 else 0) +
      (if has_bad_ancestor a then -4 else 0) +
      (if art then 1 else 0))) ∧
    (text.length = 140 → score_anchor a text url = .ok ((3 : Int) +
      (if headingParent a then 4 else 0) +
      (if has_good_ancestor a then 2 else 0) +
      (if has_bad_ancestor a then -4 else 0) +
      (if art then 1 else 0))) ∧
    (text.length = 141 → score_anchor a text url = .ok ((-1 : Int) +
      (if headingParent a then 4 else 0) +
      (if has_good_ancestor a then 2 else 0) +
      (if has_bad_ancestor a then -4 else 0) +
      (if art then 1 else 0))) := by
  have hmain := score_anchor_eq a text url art h
  refine ⟨hmain, ?_, ?_, ?_, ?_⟩ <;> intro hl <;> rw [hmain] <;> norm_num [hl]

/-- C4 witness: a bare anchor with a 24-character title and a short
non-article URL scores exactly +1. -/
theorem C4_score_boundaries_witness :
    is_probably_article_url (String.data "http://h/x") = .ok false ∧
    score_anchor ⟨[], [], []⟩ (List.replicate 24 'a')
      (String.data "http://h/x") = .ok 1 := by
  have h := (C4_score_boundaries ⟨[], [], []⟩ (List.replicate 24 'a')
    (String.data "http://h/x") false (by rfl)).2.1 (by decide)
  exact ⟨by rfl, h.trans (by rfl)⟩

/-! ## C6: the escalation loop -/

/-- C6: the four passes run in the fixed selector order, and after a
pass whose selector is not the final `a[href]` the loop stops exactly
when the accumulated count has reached `max_items * 2`; otherwise it
continues with the remaining passes from the reached state. -/
theorem C6_escalation (doc : List Node) (base_url : List Char)
    (allow_re deny_re : Option RePattern) (max_items : Nat) :
    selectors = ["h1 a[href], h2 a[href], h3 a[href]", "article a[href]",
      "main a[href]", "a[href]"] ∧
    (∀ st st2 sel rest,
      processAnchorList base_url allow_re deny_re st (selectQ doc sel) = .ok st2 →
      max_items * 2 ≤ st2.scored.length → sel ≠ "a[href]" →
      runPasses doc base_url allow_re deny_re max_items (sel :: rest) st =
        .ok st2) ∧
    (∀ st st2 sel rest,
      processAnchorList base_url allow_re deny_re st (selectQ doc sel) = .ok st2 →
      st2.scored.length < max_items * 2 ∨ sel = "a[href]" →
      runPasses doc base_url allow_re deny_re max_items (sel :: rest) st =
        runPasses doc base_url allow_re deny_re max_items rest st2) := by
  refine ⟨rfl, ?_, ?_⟩
  · intro st st2 sel rest hp hlen hsel
    unfold runPasses
    rw [hp]
    dsimp only
    rw [if_pos ⟨hlen, hsel⟩]
  · intro st st2 sel rest hp hor
    have hneg : ¬(max_items * 2 ≤ st2.scored.length ∧ sel ≠ "a[href]") := by
      rcases hor with hlt | hsel
      · exact fun hc => absurd hc.1 (Nat.not_le.mpr hlt)
      · exact fun hc => hc.2 hsel
    conv_lhs => unfold runPasses
    rw [hp]
    dsimp only
    rw [if_neg hneg]

/-- C6 witness: with `max_items = 0` the bound `0 ≤ count` holds after
the empty `article` pass, so the remaining passes are skipped. -/
theorem C6_escalation_witness :
    processAnchorList [] none none ⟨[], []⟩ (selectQ [] "article a[href]") =
      .ok ⟨[], []⟩ ∧
    runPasses [] [] none none 0 ["article a[href]", "a[href]"] ⟨[], []⟩ =
      .ok ⟨[], []⟩ :=
  ⟨rfl, (C6_escalation [] [] none none 0).2.1 ⟨[], []⟩ ⟨[], []⟩
    "article a[href]" ["a[href]"] rfl (by decide) (by decide)⟩

/-! ## C9: the junk filter matches whole strings only -/

theorem collapseGo_no_newline (t : List Char) (b : Bool) :
    '\n' ∉ collapseGo b t := by
  induction t generalizing b with
  | nil => simp [collapseGo]
  | cons c rest ih =>
    unfold collapseGo
    by_cases hc : isPyWs c = true
    · rw [if_pos hc]
      by_cases hb : b
      · rw [if_pos hb]
        exact ih true
      · rw [if_neg hb]
        intro hmem
        rcases List.mem_cons.mp hmem with he | he
        · cases he
        · exact ih true he
    · rw [if_neg hc]
      intro hmem
      rcases List.mem_cons.mp hmem with he | he
      · rw [← he] at hc
        exact hc rfl
      · exact ih false he

theorem pyStrip_subset {c : Char} {l : List Char} (h : c ∈ pyStrip l) :
    c ∈ l := by
  unfold pyStrip at h
  rw [List.mem_reverse] at h
  have h2 := (List.dropWhile_sublist _).subset h
  rw [List.mem_reverse] at h2
  exact (List.dropWhile_sublist _).subset h2

theorem toLower_eq_newline {c : Char} (h : Char.toLower c = '\n') :
    c = '\n' := by
  have h1 : (Char.toLower c).toNat = 10 := by rw [h]; rfl
  rw [toLower_toNat] at h1
  by_cases h2 : c.toNat ≥ 65 ∧ c.toNat ≤ 90
  · rw [if_pos h2] at h1
    omega
  · rw [if_neg h2] at h1
    exact char_eq_of_toNat h1

theorem text_norm_no_newline (text : List Char) :
    '\n' ∉ lowerStr (text_norm_of text) := by
  intro hmem
  rcases List.mem_map.mp hmem with ⟨c, hc, he⟩
  have hcn : c = '\n' := toLower_eq_newline he
  subst hcn
  exact collapseGo_no_newline text false (pyStrip_subset hc)

/-- C9: against the text the pipeline actually searches (the collapsed,
stripped, lowercased anchor text) the compiled junk pattern matches iff
the whole text equals one of the phrases — a text that merely contains
a phrase as a proper substring is never rejected. -/
theorem C9_junk_whole_match (text : List Char) :
    junkSearch (lowerStr (text_norm_of text)) = true ↔
      lowerStr (text_norm_of text) ∈ JUNK_PHRASES := by
  have hn := text_norm_no_newline text
  unfold junkSearch
  rw [List.any_eq_true]
  constructor
  · rintro ⟨p, hp, hor⟩
    simp only [Bool.or_eq_true, decide_eq_true_eq] at hor
    rcases hor with he | he
    · rw [he]
      exact hp
    · exfalso
      apply hn
      rw [he]
      exact List.mem_append.mpr (Or.inr (List.mem_singleton.mpr rfl))
  · intro hmem
    exact ⟨lowerStr (text_norm_of text), hmem, by simp⟩

example : junkSearch (lowerStr (text_norm_of
    "Privacy concerns grow in Europe".data)) = false := by decide


/-! ## C10: filters run on the normalized URL, by unanchored search -/

theorem reSearch_iff (p : RePattern) (s : List Char) :
    reSearch p s = true ↔ ∃ i, i ≤ s.length ∧ p.matchAt (s.drop i) = true := by
  unfold reSearch
  rw [List.any_eq_true]
  constructor
  · rintro ⟨i, hi, hm⟩
    exact ⟨i, Nat.lt_succ_iff.mp (List.mem_range.mp hi), hm⟩
  · rintro ⟨i, hi, hm⟩
    exact ⟨i, List.mem_range.mpr (Nat.lt_succ_iff.mpr hi), hm⟩

theorem passes_url_filters_iff (url : List Char)
    (allow_re deny_re : Option RePattern) :
    passes_url_filters url allow_re deny_re = true ↔
      ((∀ d, deny_re = some d → reSearch d url = false) ∧
        (∀ p, allow_re = some p → reSearch p url = true)) := by
  unfold passes_url_filters
  cases deny_re with
  | none =>
    cases allow_re with
    | none => simp
    | some p => by_cases hp : reSearch p url = true <;> simp [hp]
  | some d =>
    cases allow_re with
    | none =>
      by_cases hd : reSearch d url = true <;> simp [hd]
    | some p =>
      by_cases hd : reSearch d url = true <;>
        by_cases hp : reSearch p url = true <;> simp [hd, hp]

/-- Everything the selector-loop body can do to `scored`: leave it
unchanged (a skip), or append one entry whose URL is the normalized
result of resolving the href against the base, checked against the
filters. -/
theorem processAnchor_scored (base_url : List Char)
    (allow_re deny_re : Option RePattern) (st : ExtractState) (a : AnchorCtx)
    (st2 : ExtractState)
    (h : processAnchor base_url allow_re deny_re st a = .ok st2) :
    st2.scored = st.scored ∨
    ∃ s href joined, lookupAttr a.attrs "href" = some href ∧
      pyUrljoin base_url href.data = .ok joined ∧
      st2.scored = st.scored ++
        [(s, ⟨text_norm_of (anchor_text a), normalizeUrlL joined⟩)] ∧
      passes_url_filters (normalizeUrlL joined) allow_re deny_re = true := by
  unfold processAnchor at h
  cases hhref : lookupAttr a.attrs "href" with
  | none =>
    rw [hhref] at h
    dsimp only at h
    injection h with h2
    subst h2
    exact Or.inl rfl
  | some href =>
    rw [hhref] at h
    dsimp only at h
    by_cases h1 : href.data = []
    · rw [if_pos h1] at h
      injection h with h2
      subst h2
      exact Or.inl rfl
    rw [if_neg h1] at h
    by_cases h2 : anchor_text a = []
    · rw [if_pos h2] at h
      injection h with h9
      subst h9
      exact Or.inl rfl
    rw [if_neg h2] at h
    by_cases h3 : (text_norm_of (anchor_text a)).length < 12
    · rw [if_pos h3] at h
      injection h with h9
      subst h9
      exact Or.inl rfl
    rw [if_neg h3] at h
    by_cases h4 : junkSearch (lowerStr (text_norm_of (anchor_text a))) = true
    · rw [if_pos h4] at h
      injection h with h9
      subst h9
      exact Or.inl rfl
    rw [if_neg h4] at h
    cases hjoin : pyUrljoin base_url href.data with
    | error e =>
      rw [hjoin] at h
      dsimp only at h
      cases h
    | ok joined =>
      rw [hjoin] at h
      dsimp only at h
      by_cases h5 : (!isHttpS (normalizeUrlL joined)) = true
      · rw [if_pos h5] at h
        injection h with h9
        subst h9
        exact Or.inl rfl
      rw [if_neg h5] at h
      by_cases h6 :
          (!passes_url_filters (normalizeUrlL joined) allow_re deny_re) = true
      · rw [if_pos h6] at h
        injection h with h9
        subst h9
        exact Or.inl rfl
      rw [if_neg h6] at h
      by_cases h7 : fingerprint (normalizeUrlL joined)
          (text_norm_of (anchor_text a)) ∈ st.seen
      · rw [if_pos h7] at h
        injection h with h9
        subst h9
        exact Or.inl rfl
      rw [if_neg h7] at h
      cases hscore : score_anchor a (text_norm_of (anchor_text a))
          (normalizeUrlL joined) with
      | error e =>
        rw [hscore] at h
        dsimp only at h
        cases h
      | ok s =>
        rw [hscore] at h
        dsimp only at h
        injection h with h9
        subst h9
        refine Or.inr ⟨s, href, joined, rfl, hjoin, rfl, ?_⟩
        simpa using h6

/-- C10: `passes_url_filters` passes iff the deny pattern (when given)
matches nowhere and the allow pattern (when given) matches somewhere;
`search` is unanchored (a match at any position counts); and the URL
the filters receive is always the normalized resolved URL, never the
raw href. -/
theorem C10_filters_normalized :
    (∀ url allow_re deny_re,
      passes_url_filters url allow_re deny_re = true ↔
        ((∀ d, deny_re = some d → reSearch d url = false) ∧
          (∀ p, allow_re = some p → reSearch p url = true))) ∧
    (∀ (p : RePattern) (s : List Char),
      reSearch p s = true ↔ ∃ i, i ≤ s.length ∧ p.matchAt (s.drop i) = true) ∧
    (∀ base_url allow_re deny_re st a st2,
      processAnchor base_url allow_re deny_re st a = .ok st2 →
      st2.scored = st.scored ∨
      ∃ s href joined, lookupAttr a.attrs "href" = some href ∧
        pyUrljoin base_url href.data = .ok joined ∧
        st2.scored = st.scored ++
          [(s, ⟨text_norm_of (anchor_text a), normalizeUrlL joined⟩)] ∧
        passes_url_filters (normalizeUrlL joined) allow_re deny_re = true) :=
  ⟨passes_url_filters_iff, reSearch_iff,
    fun base_url allow_re deny_re st a st2 h =>
      processAnchor_scored base_url allow_re deny_re st a st2 h⟩

/-! ## C1: the anchor-text resolution has no priority order -/

mutual

/-- The first descendant heading (h1-h3) with non-empty text, written
from the spec sentence (section 4.2) for comparison with the code's
`anchor_text`; the code itself has no such step. -/
def headingTextNode : Node → Option (List Char)
  | .text _ => none
  | .elem nm _ ch =>
    if (nm = "h1" ∨ nm = "h2" ∨ nm = "h3") ∧ getTextStrip ch ≠ [] then
      some (getTextStrip ch)
    else headingTexts ch

def headingTexts : List Node → Option (List Char)
  | [] => none
  | n :: rest =>
    match headingTextNode n with
    | some t => some t
    | none => headingTexts rest

end

/-- The spec's three-step resolution order (section 4.2), modelled from
the spec text, not from the code: heading text first, then a non-empty
`title`/`aria-label` attribute, then the full visible text. -/
def specAnchorText (a : AnchorCtx) : List Char :=
  match headingTexts a.children with
  | some t => t
  | none =>
    if ((lookupAttr a.attrs "title").getD "").data ≠ [] then
      ((lookupAttr a.attrs "title").getD "").data
    else if ((lookupAttr a.attrs "aria-label").getD "").data ≠ [] then
      ((lookupAttr a.attrs "aria-label").getD "").data
    else getTextStrip a.children

/-- C1: counterexample — for an anchor with a non-empty `title`
attribute and no heading descendant, the spec's resolution order picks
the attribute, but the code's `anchor_text` is the visible text. -/
theorem C1_anchor_text_counterexample :
    anchor_text ⟨[("href", "/x"), ("title", "From the title attribute")],
        [Node.text "plain text"], []⟩ ≠
      specAnchorText ⟨[("href", "/x"), ("title", "From the title attribute")],
        [Node.text "plain text"], []⟩ := by decide

/-- C1 (amended): there is no three-step priority — `anchor_text` is
always the element's full visible text (`get_text(" ", strip=True)`).
It never reads the `title`/`aria-label` attributes and never prefers a
heading descendant: it depends only on the document-order sequence of
descendant text fragments. -/
theorem C1_anchor_text_amended (a1 a2 : AnchorCtx)
    (h : nodesTexts a1.children = nodesTexts a2.children) :
    anchor_text a1 = anchor_text a2 ∧
    anchor_text a1 = getTextStrip a1.children := by
  refine ⟨?_, rfl⟩
  unfold anchor_text getTextStrip
  rw [h]

/-- C1 witness: an anchor whose text sits inside an `h2` and carries a
`title` attribute resolves identically to a bare anchor with the same
text fragments. -/
theorem C1_anchor_text_amended_witness :
    nodesTexts [Node.elem "h2" [] [Node.text "Some headline"]] =
      nodesTexts [Node.elem "span" [] [Node.text "Some headline"]] ∧
    anchor_text ⟨[("title", "ignored attribute")],
        [Node.elem "h2" [] [Node.text "Some headline"]], []⟩ =
      anchor_text ⟨[], [Node.elem "span" [] [Node.text "Some headline"]],
        ["nav"]⟩ :=
  ⟨rfl, (C1_anchor_text_amended
    ⟨[("title", "ignored attribute")],
      [Node.elem "h2" [] [Node.text "Some headline"]], []⟩
    ⟨[], [Node.elem "span" [] [Node.text "Some headline"]], ["nav"]⟩ rfl).1⟩

/-! ## C7: a malformed href aborts the whole page -/

/-- C7: refutation of the totality claim.  `urljoin` (line 189) runs
outside any `try`: an anchor with a well-formed text but an href whose
parse raises (unbalanced IPv6 bracket) aborts `processAnchor`, the
selector loop and the whole `extract_candidates` call, while
`normalize_url` itself does fail open on the same string. -/
theorem C7_malformed_anchor_aborts :
    pyUrljoin (String.data "http://h") (String.data "http://[::1/x") =
      .error () ∧
    processAnchor (String.data "http://h") none none ⟨[], []⟩
      ⟨[("href", "http://[::1/x")], [Node.text "A perfectly fine headline"],
        []⟩ = .error () ∧
    extract_candidates
      [Node.elem "a" [("href", "http://[::1/x")]
        [Node.text "A perfectly fine headline"]]
      (String.data "http://h") none none 40 = .error () ∧
    normalize_url "http://[::1/x" = "http://[::1/x" :=
  ⟨by rfl, by rfl, by rfl, by rfl⟩


/-- C10 witness: a concrete anchor run — the appended candidate carries
the normalized resolved URL and passes the (absent) filters. -/
theorem C10_filters_normalized_witness :
    processAnchor (String.data "http://h") none none ⟨[], []⟩
      ⟨[("href", "/news/a-long-story-title")],
        [Node.text "A perfectly fine headline"], []⟩ =
      .ok ⟨[String.data "http://h/news/a-long-story-title||a perfectly fine headline"],
        [(3, ⟨String.data "A perfectly fine headline",
          String.data "http://h/news/a-long-story-title"⟩)]⟩ ∧
    (([(3, (⟨String.data "A perfectly fine headline",
        String.data "http://h/news/a-long-story-title"⟩ : Cand))] :
        List (Int × Cand)) = [] ∨
      ∃ s href joined,
        lookupAttr [("href", "/news/a-long-story-title")] "href" = some href ∧
        pyUrljoin (String.data "http://h") href.data = .ok joined ∧
        ([(3, (⟨String.data "A perfectly fine headline",
            String.data "http://h/news/a-long-story-title"⟩ : Cand))] :
          List (Int × Cand)) = [] ++
          [(s, ⟨text_norm_of (anchor_text ⟨[("href", "/news/a-long-story-title")],
            [Node.text "A perfectly fine headline"], []⟩), normalizeUrlL joined⟩)] ∧
        passes_url_filters (normalizeUrlL joined) none none = true) :=
  ⟨by rfl, C10_filters_normalized.2.2 (String.data "http://h") none none
    ⟨[], []⟩
    ⟨[("href", "/news/a-long-story-title")],
      [Node.text "A perfectly fine headline"], []⟩
    ⟨[String.data "http://h/news/a-long-story-title||a perfectly fine headline"],
      [(3, ⟨String.data "A perfectly fine headline",
        String.data "http://h/news/a-long-story-title"⟩)]⟩ (by rfl)⟩


/-! ## C3: the cross-source merge keeps the earliest row per URL -/

theorem mergeGo_filter (rows : List Row) (seen : List (List Char))
    (acc : List Row) (u : List Char) :
    (mergeGo seen acc rows).filter (fun r => decide (r.url = u)) =
      acc.filter (fun r => decide (r.url = u)) ++
        (if u ∈ seen then []
          else
            match rows.find? (fun r => decide (normalizeUrlL r.url = u)) with
            | none => []
            | some r => [{ r with url := u }]) := by
  induction rows generalizing seen acc with
  | nil =>
    unfold mergeGo
    simp only [List.find?_nil]
    by_cases hu : u ∈ seen
    · rw [if_pos hu, List.append_nil]
    · rw [if_neg hu]
      rw [List.append_nil]
  | cons r rest ih =>
    unfold mergeGo
    dsimp only
    by_cases hmem : normalizeUrlL r.url ∈ seen
    · rw [if_pos hmem, ih]
      congr 1
      by_cases hu : u ∈ seen
      · rw [if_pos hu, if_pos hu]
      · rw [if_neg hu, if_neg hu]
        have hne : ¬(normalizeUrlL r.url = u) := fun hc => hu (hc ▸ hmem)
        rw [List.find?_cons_of_neg _ (by simpa using hne)]
    · rw [if_neg hmem, ih]
      by_cases hu : u ∈ seen
      · have hru : ¬(normalizeUrlL r.url = u) := fun hc => hmem (hc ▸ hu)
        rw [if_pos (List.mem_cons_of_mem _ hu), if_pos hu,
          List.filter_append, List.append_nil, List.append_nil]
        simp [hru]
      · rw [if_neg hu]
        by_cases hr : normalizeUrlL r.url = u
        · rw [if_pos (by rw [← hr]; exact List.mem_cons_self _ _),
            List.append_nil, List.filter_append,
            List.find?_cons_of_pos _ (by simpa using hr)]
          simp [hr]
        · rw [if_neg (by
              intro hc
              rcases List.mem_cons.mp hc with hc | hc
              · exact hr hc.symm
              · exact hu hc),
            List.filter_append,
            List.find?_cons_of_neg _ (by simpa using hr)]
          simp [hr]

/-- C3: in the merged list, the rows carrying a given normalized URL
`u` are exactly one — the earliest row of the concatenated per-source
sequence whose URL normalizes to `u`, with its URL rewritten to `u` —
or none; scores play no part (rows carry none). -/
theorem C3_merge_first_wins (rows : List Row) (u : List Char) :
    (merge_rows rows).filter (fun r => decide (r.url = u)) =
      match rows.find? (fun r => decide (normalizeUrlL r.url = u)) with
      | none => []
      | some r => [{ r with url := u }] := by
  have h := mergeGo_filter rows [] [] u
  unfold merge_rows
  rw [h]
  simp

/-! ## C2: per-page dedupe keeps the best score per URL -/

/-- The replacement rule of the `by_url` pass in isolation, used to
state C2: each later entry replaces the current survivor only when its
score is strictly greater, so the survivor is the earliest entry of
maximal score. -/
def battle (e : Int × Cand) : List (Int × Cand) → Int × Cand
  | [] => e
  | x :: xs => battle (if e.1 < x.1 then x else e) xs

def combineBest : Option (Int × Cand) → List (Int × Cand) → List (Int × Cand)
  | none, [] => []
  | none, x :: xs => [battle x xs]
  | some e, xs => [battle e xs]

theorem battle_le (xs : List (Int × Cand)) (e : Int × Cand) :
    e.1 ≤ (battle e xs).1 ∧ ∀ x ∈ xs, x.1 ≤ (battle e xs).1 := by
  induction xs generalizing e with
  | nil => exact ⟨le_refl _, by intro x hx; cases hx⟩
  | cons x xs ih =>
    unfold battle
    obtain ⟨ih1, ih2⟩ := ih (if e.1 < x.1 then x else e)
    have hef : e.1 ≤ (if e.1 < x.1 then x else e).1 := by
      by_cases hlt : e.1 < x.1
      · rw [if_pos hlt]
        exact le_of_lt hlt
      · rw [if_neg hlt]
    have hxf : x.1 ≤ (if e.1 < x.1 then x else e).1 := by
      by_cases hlt : e.1 < x.1
      · rw [if_pos hlt]
      · rw [if_neg hlt]
        exact le_of_not_lt hlt
    refine ⟨le_trans hef ih1, ?_⟩
    intro y hy
    rcases List.mem_cons.mp hy with hyx | hyx
    · rw [hyx]
      exact le_trans hxf ih1
    · exact ih2 y hyx

theorem byUrlUpd_filter_ne {m : List (Int × Cand)} {s : Int} {c : Cand}
    {u : List Char} (hc : ¬(c.url = u)) :
    (byUrlUpd m s c).filter (fun e => decide (e.2.url = u)) =
      m.filter (fun e => decide (e.2.url = u)) := by
  induction m with
  | nil => simp [byUrlUpd, hc]
  | cons hd mtl ih =>
    obtain ⟨s0, c0⟩ := hd
    unfold byUrlUpd
    by_cases heq : c0.url = c.url
    · rw [if_pos heq]
      by_cases hlt : s0 < s <;>
        simp [hlt, List.filter_cons, hc, heq]
    · rw [if_neg heq]
      simp only [List.filter_cons]
      rw [ih]

theorem byUrlUpd_filter_eq (m : List (Int × Cand)) (s : Int) (c : Cand) :
    (byUrlUpd m s c).filter (fun e => decide (e.2.url = c.url)) =
      match m.filter (fun e => decide (e.2.url = c.url)) with
      | [] => [(s, c)]
      | e :: es => (if e.1 < s then (s, c) else e) :: es := by
  induction m with
  | nil => simp [byUrlUpd]
  | cons hd mtl ih =>
    obtain ⟨s0, c0⟩ := hd
    unfold byUrlUpd
    by_cases heq : c0.url = c.url
    · rw [if_pos heq]
      by_cases hlt : s0 < s <;> simp [hlt, List.filter_cons, heq]
    · rw [if_neg heq]
      simp only [List.filter_cons, decide_eq_true_eq]
      rw [if_neg (by simpa using heq), if_neg (by simpa using heq), ih]

theorem dedupeGo_filter (l : List (Int × Cand)) (m : List (Int × Cand))
    (u : List Char)
    (hm : m.filter (fun e => decide (e.2.url = u)) = [] ∨
      ∃ e, m.filter (fun e => decide (e.2.url = u)) = [e]) :
    (dedupeGo m l).filter (fun e => decide (e.2.url = u)) =
      combineBest ((m.filter (fun e => decide (e.2.url = u))).head?)
        (l.filter (fun e => decide (e.2.url = u))) := by
  induction l generalizing m with
  | nil =>
    unfold dedupeGo
    rcases hm with hm | ⟨e, hm⟩ <;> rw [hm] <;> rfl
  | cons x l ih =>
    obtain ⟨s, c⟩ := x
    unfold dedupeGo
    by_cases hcu : c.url = u
    · subst hcu
      have hupd := byUrlUpd_filter_eq m s c
      rcases hm with hm | ⟨e, hm⟩
      · rw [hm] at hupd
        rw [ih (byUrlUpd m s c) (Or.inr ⟨(s, c), hupd⟩), hupd, hm]
        simp [combineBest, List.filter_cons]
      · rw [hm] at hupd
        rw [ih (byUrlUpd m s c)
          (Or.inr ⟨(if e.1 < s then (s, c) else e), hupd⟩), hupd, hm]
        simp only [combineBest, List.filter_cons, List.head?]
        rfl
    · rw [ih (byUrlUpd m s c) (by rw [byUrlUpd_filter_ne hcu]; exact hm),
        byUrlUpd_filter_ne hcu]
      congr 1
      simp [List.filter_cons, hcu]

/-- C2: for every URL `u`, the second-stage dedupe keeps exactly one of
the accumulated entries sharing `u` (none when there are none): the
fold of the strictly-greater replacement rule over them, i.e. the
earliest entry of maximal score; moreover every input entry sharing the
kept entry's URL scores at most the kept score. -/
theorem C2_page_dedupe_best (l : List (Int × Cand)) (u : List Char) :
    ((dedupeByUrl l).filter (fun e => decide (e.2.url = u)) =
      match l.filter (fun e => decide (e.2.url = u)) with
      | [] => []
      | x :: xs => [battle x xs]) ∧
    ∀ e ∈ dedupeByUrl l, ∀ x ∈ l, x.2.url = e.2.url → x.1 ≤ e.1 := by
  constructor
  · have h := dedupeGo_filter l [] u (Or.inl rfl)
    unfold dedupeByUrl
    rw [h]
    cases hf : l.filter (fun e => decide (e.2.url = u)) <;> rfl
  · intro e he x hx hurl
    have he2 : e ∈ (dedupeByUrl l).filter
        (fun y => decide (y.2.url = e.2.url)) :=
      List.mem_filter.mpr ⟨he, by simp⟩
    have h := dedupeGo_filter l [] e.2.url (Or.inl rfl)
    unfold dedupeByUrl at he2
    rw [h] at he2
    cases hf : l.filter (fun y => decide (y.2.url = e.2.url)) with
    | nil =>
      rw [hf] at he2
      cases he2
    | cons y ys =>
      rw [hf] at he2
      have he3 : e = battle y ys := by simpa [combineBest] using he2
      have hx2 : x ∈ y :: ys := by
        rw [← hf]
        exact List.mem_filter.mpr ⟨hx, by simp [hurl]⟩
      have hb := battle_le ys y
      rcases List.mem_cons.mp hx2 with hyx | hyx
      · rw [he3, hyx]
        exact hb.1
      · rw [he3]
        exact hb.2 x hyx

/-! ## C8: the shape of the per-page output -/

/-- C8: the per-page result is the score-stripped prefix of length at
most `max_items` of a descending-sorted permutation of the
URL-deduplicated candidates: at most `max_items` items, every dropped
entry scoring no more than every kept one. -/
theorem C8_ranked_output (scored : List (Int × Cand)) (max_items : Nat) :
    ∃ items : List (Int × Cand),
      finalizeCandidates scored max_items =
        (items.take max_items).map (fun e => e.2) ∧
      items.Perm (dedupeByUrl (sortScoredDesc scored)) ∧
      items.Pairwise (fun x y => y.1 ≤ x.1) ∧
      (∀ x ∈ items.drop max_items, ∀ y ∈ items.take max_items, x.1 ≤ y.1) ∧
      (finalizeCandidates scored max_items).length ≤ max_items := by
  have hsort : (sortScoredDesc (dedupeByUrl (sortScoredDesc scored))).Pairwise
      (fun x y => y.1 ≤ x.1) := by
    have h := @List.sorted_mergeSort (Int × Cand)
      (fun x y => decide (y.1 ≤ x.1))
      (by
        intro a b c hab hbc
        simp only [decide_eq_true_eq] at hab hbc ⊢
        exact le_trans hbc hab)
      (by
        intro a b
        simpa using Int.le_total b.1 a.1)
      (dedupeByUrl (sortScoredDesc scored))
    exact h.imp (by simp)
  refine ⟨sortScoredDesc (dedupeByUrl (sortScoredDesc scored)), rfl,
    List.mergeSort_perm _ _, hsort, ?_, ?_⟩
  · intro x hx y hy
    have h2 := hsort
    rw [← List.take_append_drop max_items
      (sortScoredDesc (dedupeByUrl (sortScoredDesc scored)))] at h2
    exact (List.pairwise_append.mp h2).2.2 y hy x hx
  · show ((sortScoredDesc (dedupeByUrl (sortScoredDesc scored))).take
      max_items |>.map (fun e => e.2)).length ≤ max_items
    rw [List.length_map, List.length_take]
    exact min_le_left _ _

end Scrape
